import Mathlib

set_option autoImplicit false

/-!
Verification development for the `lap-notebook` path-template resolver
(`lap_notebook/resolver.py`).  The Python source is shallowly embedded:
strings are `String` (manipulated as `List Char`), insertion-ordered
dictionaries are association lists, Python sets are `Finset String`, and
fallible operations return `Option`.  All definitions are executable so
that concrete scenarios can be evaluated by `decide`.
-/

namespace Lap

/-- Whitespace characters matched by the regex class `\s` (ASCII range),
also used to model Python `str.strip`. -/
def wsChar (c : Char) : Bool :=
  c == ' ' || c == '\t' || c == '\n' || c == '\r' || c == '\x0b' || c == '\x0c'

/-- Word characters, the regex class `\w` on ASCII input. -/
def wordChar (c : Char) : Bool :=
  c.isAlpha || c.isDigit || c == '_'

/-- Leading character of an identifier: the regex class `[A-Za-z_]`. -/
def identStart (c : Char) : Bool :=
  c.isAlpha || c == '_'

/-- First-match lookup in an association list, modelling `dict.get` on an
insertion-ordered Python dict with unique keys. -/
def lookupA {α : Type} : List (String × α) → String → Option α
  | [], _ => none
  | (k, v) :: t, key => if k = key then some v else lookupA t key

/-- `d[k] = v` on an insertion-ordered dict: an existing key keeps its
position and gets the new value, a new key is appended at the end. -/
def upsertA {α : Type} : List (String × α) → String → α → List (String × α)
  | [], k, v => [(k, v)]
  | (k', v') :: t, k, v => if k' = k then (k, v) :: t else (k', v') :: upsertA t k v

/-- `dict.setdefault(k, []).append(v)`. -/
def appendAtKey {α : Type} : List (String × List α) → String → α → List (String × List α)
  | [], k, v => [(k, [v])]
  | (k', l) :: t, k, v =>
    if k' = k then (k', l ++ [v]) :: t else (k', l) :: appendAtKey t k v

/-- `_strip_comments`: drop everything from the first `#` on. -/
def stripCommentsL : List Char → List Char
  | [] => []
  | c :: r => if c = '#' then [] else c :: stripCommentsL r

/-- Python `str.strip()`. -/
def stripL (l : List Char) : List Char :=
  ((l.dropWhile wsChar).reverse.dropWhile wsChar).reverse

/-- Maximal munch of `[A-Za-z_]\w*` at the head of the input, returning
the identifier and the remaining characters. -/
def takeIdent : List Char → Option (List Char × List Char)
  | [] => none
  | c :: r =>
    if identStart c then some (c :: r.takeWhile wordChar, r.dropWhile wordChar)
    else none

/-- Lookup-equivalent model of the Python dict merge `{**a, **b}`:
entries of `b` shadow entries of `a`. -/
def mergeMaps (a b : List (String × String)) : List (String × String) := b ++ a

/-- The scan of `DOLLAR_RE.sub` in `_expand_dollars`: left-to-right,
non-overlapping, replacements are not rescanned, unresolvable `$name`
tokens are kept verbatim.  The `Nat` fuel keeps the recursion structural;
each step consumes at least one input character, so `expandDollarsL`
supplies fuel that never runs out. -/
def expandDollarsFuel (vm : List (String × String)) : Nat → List Char → List Char
  | 0, l => l
  | _ + 1, [] => []
  | n + 1, c :: r =>
    if c = '$' then
      match takeIdent r with
      | some (id, rest) =>
        (match lookupA vm (String.mk id) with
         | some v => v.data
         | none => '$' :: id) ++ expandDollarsFuel vm n rest
      | none => '$' :: expandDollarsFuel vm n r
    else c :: expandDollarsFuel vm n r

/-- `_expand_dollars` on the character list of a template string. -/
def expandDollarsL (vm : List (String × String)) (l : List Char) : List Char :=
  expandDollarsFuel vm l.length l

/-- The `AT_RE.sub` scan inside `_expand_placeholders`: an `@name` token
is replaced by `ph["@name"]` when that key is present, else kept
verbatim. -/
def expandAtsFuel (ph : List (String × String)) : Nat → List Char → List Char
  | 0, l => l
  | _ + 1, [] => []
  | n + 1, c :: r =>
    if c = '@' then
      match takeIdent r with
      | some (id, rest) =>
        (match lookupA ph (String.mk ('@' :: id)) with
         | some v => v.data
         | none => '@' :: id) ++ expandAtsFuel ph n rest
      | none => '@' :: expandAtsFuel ph n r
    else c :: expandAtsFuel ph n r

def expandAtsL (ph : List (String × String)) (l : List Char) : List Char :=
  expandAtsFuel ph l.length l

/-- `AT_RE.findall`: the list of `@`-token names in a string, in order. -/
def atTokensFuel : Nat → List Char → List String
  | 0, _ => []
  | _ + 1, [] => []
  | n + 1, c :: r =>
    if c = '@' then
      match takeIdent r with
      | some (id, rest) => String.mk id :: atTokensFuel n rest
      | none => atTokensFuel n r
    else atTokensFuel n r

def atTokensL (l : List Char) : List String := atTokensFuel l.length l

/-- `posixpath.isabs`: the path starts with a slash. -/
def isAbsL (l : List Char) : Bool :=
  match l with
  | [] => false
  | c :: _ => c == '/'

def isAbsS (s : String) : Bool := isAbsL s.data

/-- `posixpath.join` restricted to two components, as `_norm_join` uses it. -/
def joinL (a b : List Char) : List Char :=
  if isAbsL b then b
  else if a = [] then a ++ b
  else if a.getLast? = some '/' then a ++ b
  else a ++ '/' :: b

/-- `'/'.join(components)`. -/
def joinSlash : List (List Char) → List Char
  | [] => []
  | [x] => x
  | x :: y :: t => x ++ '/' :: joinSlash (y :: t)

/-- `str.split('/')`. -/
def splitSlash : List Char → List (List Char)
  | [] => [[]]
  | c :: r =>
    if c = '/' then [] :: splitSlash r
    else
      match splitSlash r with
      | [] => [[c]]
      | h :: t => (c :: h) :: t

/-- One step of the component loop of `posixpath.normpath`:  skip empty
and `.` components, push other components, let `..` pop the previous
component except at the start of a relative path or after a surviving
`..`. -/
def normStep (slashes : Nat) (acc : List (List Char)) (comp : List Char) : List (List Char) :=
  if comp = [] ∨ comp = ['.'] then acc
  else if comp ≠ ['.', '.'] ∨ (slashes = 0 ∧ acc = []) ∨ acc.getLast? = some ['.', '.'] then
    acc ++ [comp]
  else if acc ≠ [] then acc.dropLast
  else acc

/-- The `initial_slashes` computation of `posixpath.normpath`: 2 for a
`//`-prefix that is not `///`, 1 for any other absolute path, else 0. -/
def normSlashes (p : List Char) : Nat :=
  if isAbsL p then
    if p.take 2 = ['/', '/'] ∧ p.take 3 ≠ ['/', '/', '/'] then 2 else 1
  else 0

/-- `posixpath.normpath`. -/
def normpathL (p : List Char) : List Char :=
  if p = [] then ['.']
  else
    let nc := (splitSlash p).foldl (normStep (normSlashes p)) []
    let out := List.replicate (normSlashes p) '/' ++ joinSlash nc
    if out = [] then ['.'] else out

def normpathS (s : String) : String := String.mk (normpathL s.data)

/-- `_norm_join`: `os.path.normpath(os.path.join(a, b))`. -/
def normJoin (a b : String) : String := String.mk (normpathL (joinL a.data b.data))

structure ClassDef where
  name : String
  display : String
  parent : Option String := none
  deriving DecidableEq, Repr

structure DirTemplate where
  name : String
  template : String
  class_level : Option String := none
  deriving DecidableEq, Repr

structure FileTemplate where
  name : String
  tpl : String
  dir_ref : String
  class_level : Option String := none
  deriving DecidableEq, Repr

structure PipelineCfg where
  vars : List (String × String)
  classes : List (String × ClassDef)
  child_classes : List (String × List String)
  dirs : List (String × DirTemplate)
  files : List (String × FileTemplate)
  deriving DecidableEq, Repr

structure Instance where
  name : String
  class_name : String
  parents : List String
  props : List (String × String)
  deriving DecidableEq, Repr

structure Meta where
  keys : List (String × String)
  config_path : Option String
  instances : List (String × Instance)
  by_class : List (String × List String)
  deriving DecidableEq, Repr

structure IndexRecord where
  path : String
  placeholders : List (String × String)
  class_level : Option String
  source : String
  deriving DecidableEq, Repr

/-- `CFG_VAR_RE` (`^\s*([A-Za-z_]\w*)\s*=\s*(.*?)\s*$`) applied to a
comment-stripped, whitespace-stripped line. -/
def matchVarL (l : List Char) : Option (String × String) :=
  match takeIdent l with
  | none => none
  | some (id, rest) =>
    match rest.dropWhile wsChar with
    | '=' :: r => some (String.mk id, String.mk (stripL r))
    | _ => none

/-- The optional suffix `\s+parent\s+([A-Za-z_]\w*)\s*$` of
`CFG_CLASS_RE`, on a line with no trailing whitespace. -/
def matchParentSuffix : List Char → Option String
  | [] => none
  | c :: r =>
    if wsChar c then
      let s1 := r.dropWhile wsChar
      if ['p', 'a', 'r', 'e', 'n', 't'].isPrefixOf s1 then
        match s1.drop 6 with
        | c2 :: r2 =>
          if wsChar c2 then
            match takeIdent (r2.dropWhile wsChar) with
            | some (id, []) => some (String.mk id)
            | _ => none
          else none
        | [] => none
      else none
    else none

/-- The lazy group 2 of `CFG_CLASS_RE` (`(.+?)` followed by the optional
`parent` group): the shortest nonempty prefix whose remaining suffix
either matches the `parent` group or is empty, preferring the `parent`
reading at each split point. -/
def classScan (acc : List Char) : List Char → Option (List Char × Option String)
  | [] => none
  | c :: rest =>
    match matchParentSuffix rest with
    | some p => some ((c :: acc).reverse, some p)
    | none =>
      match rest with
      | [] => some ((c :: acc).reverse, none)
      | _ :: _ => classScan (c :: acc) rest

/-- `CFG_CLASS_RE` applied to a stripped line; returns the class name,
the raw display group (stripped by the caller, as in the source) and the
optional parent. -/
def matchClassL (l : List Char) : Option (String × String × Option String) :=
  if ['c', 'l', 'a', 's', 's'].isPrefixOf l then
    match l.drop 5 with
    | c :: r =>
      if wsChar c then
        match takeIdent (r.dropWhile wsChar) with
        | some (id, rest) =>
          match rest.dropWhile wsChar with
          | '=' :: r2 =>
            match classScan [] (r2.dropWhile wsChar) with
            | some (disp, par) => some (String.mk id, String.mk disp, par)
            | none => none
          | _ => none
        | none => none
      else none
    | [] => none
  else none

/-- Require at least one whitespace character, then skip all whitespace
(the regex piece `\s+`). -/
def dropWs1 : List Char → Option (List Char)
  | c :: r => if wsChar c then some (r.dropWhile wsChar) else none
  | [] => none

/-- One `\w+\s+` unit of the leading token loop of `CFG_DIR_RE` and
`CFG_FILE_RE`. -/
def tokenStrip (l : List Char) : Option (List Char) :=
  match l with
  | c :: r =>
    if wordChar c then
      match r.dropWhile wordChar with
      | c2 :: r2 => if wsChar c2 then some ((c2 :: r2).dropWhile wsChar) else none
      | [] => none
    else none
  | [] => none

/-- Suffixes of the line after zero, one, two, ... leading `\w+\s+`
tokens, in that order; the fuel is called with the line length, which
bounds the number of units. -/
def tokenSuffixes : Nat → List Char → List (List Char)
  | 0, l => [l]
  | n + 1, l =>
    l :: (match tokenStrip l with
          | some l2 => tokenSuffixes n l2
          | none => [])

/-- The tail `\s+([A-Za-z_]\w*)` of the optional `class_level` group. -/
def classLevelTail : List Char → Option String
  | c :: r =>
    if wsChar c then
      match takeIdent (r.dropWhile wsChar) with
      | some (id, _) => some (String.mk id)
      | none => none
    else none
  | [] => none

/-- The optional `.*?\bclass_level\s+([A-Za-z_]\w*)` search: the earliest
occurrence of `class_level` preceded by a non-word character and followed
by whitespace and an identifier.  `prev` is the character just before the
current position (needed for the `\b` boundary). -/
def findClassLevel (prev : Char) : List Char → Option String
  | [] => none
  | c :: r =>
    if !wordChar prev &&
        ['c', 'l', 'a', 's', 's', '_', 'l', 'e', 'v', 'e', 'l'].isPrefixOf (c :: r) then
      match classLevelTail ((c :: r).drop 11) with
      | some id => some id
      | none => findClassLevel c r
    else findClassLevel c r

/-- `CFG_DIR_RE` after the leading token loop:
`mkdir\s+path\s+([A-Za-z_]\w*)\s*=\s*(\S+)(?:.*?\bclass_level\s+([A-Za-z_]\w*))?.*$`. -/
def matchDirCore (l : List Char) : Option (String × String × Option String) :=
  if ['m', 'k', 'd', 'i', 'r'].isPrefixOf l then
    match dropWs1 (l.drop 5) with
    | some l1 =>
      if ['p', 'a', 't', 'h'].isPrefixOf l1 then
        match dropWs1 (l1.drop 4) with
        | some l2 =>
          match takeIdent l2 with
          | some (name, rest) =>
            match rest.dropWhile wsChar with
            | '=' :: r2 =>
              let r3 := r2.dropWhile wsChar
              let tpl := r3.takeWhile (fun c => !wsChar c)
              let rem := r3.dropWhile (fun c => !wsChar c)
              if tpl = [] then none
              else
                let lvl :=
                  match tpl.getLast? with
                  | some pc => findClassLevel pc rem
                  | none => none
                some (String.mk name, String.mk tpl, lvl)
            | _ => none
          | none => none
        | none => none
      else none
    | none => none
  else none

/-- `CFG_DIR_RE` applied to a stripped line.  The greedy leading
`(?:\w+\s+)*` loop makes the engine try starting positions from the most
leading tokens down to none; the first complete match wins. -/
def matchDirL (l : List Char) : Option (String × String × Option String) :=
  (tokenSuffixes l.length l).reverse.findSome? matchDirCore

/-- `CFG_FILE_RE` after the leading token loop:
`path\s+file\s+([A-Za-z_]\w*)\s*=\s*(\S+)\s+dir\s+([A-Za-z_]\w*)(?:.*?\bclass_level\s+([A-Za-z_]\w*))?.*$`. -/
def matchFileCore (l : List Char) : Option (String × String × String × Option String) :=
  if ['p', 'a', 't', 'h'].isPrefixOf l then
    match dropWs1 (l.drop 4) with
    | some l1 =>
      if ['f', 'i', 'l', 'e'].isPrefixOf l1 then
        match dropWs1 (l1.drop 4) with
        | some l2 =>
          match takeIdent l2 with
          | some (name, rest) =>
            match rest.dropWhile wsChar with
            | '=' :: r2 =>
              let r3 := r2.dropWhile wsChar
              let tpl := r3.takeWhile (fun c => !wsChar c)
              let rem := r3.dropWhile (fun c => !wsChar c)
              if tpl = [] then none
              else
                match dropWs1 rem with
                | some l3 =>
                  if ['d', 'i', 'r'].isPrefixOf l3 then
                    match dropWs1 (l3.drop 3) with
                    | some l4 =>
                      match takeIdent l4 with
                      | some (dref, rest2) =>
                        let lvl :=
                          match dref.getLast? with
                          | some pc => findClassLevel pc rest2
                          | none => none
                        some (String.mk name, String.mk tpl, String.mk dref, lvl)
                      | none => none
                    | none => none
                  else none
                | none => none
            | _ => none
          | none => none
        | none => none
      else none
    | none => none
  else none

/-- `CFG_FILE_RE` applied to a stripped line. -/
def matchFileL (l : List Char) : Option (String × String × String × Option String) :=
  (tokenSuffixes l.length l).reverse.findSome? matchFileCore

/-- Line terminators recognised by Python `str.splitlines`. -/
def lineBreakChar (c : Char) : Bool :=
  c == '\n' || c == '\r' || c == '\x0b' || c == '\x0c' ||
  c == '\x1c' || c == '\x1d' || c == '\x1e' || c == '\x85' || c == '\u2028' || c == '\u2029'

/-- Python `str.splitlines()` (no terminator kept, `\r\n` is one break,
no trailing empty line). -/
def splitLinesAux : List Char → List Char → List (List Char)
  | acc, [] => if acc = [] then [] else [acc.reverse]
  | acc, '\r' :: '\n' :: r => acc.reverse :: splitLinesAux [] r
  | acc, c :: r =>
    if lineBreakChar c then acc.reverse :: splitLinesAux [] r
    else splitLinesAux (c :: acc) r

def splitLinesS (s : String) : List (List Char) := splitLinesAux [] s.data

/-- State of the line loop of `PipelineCfg.parse`. -/
structure CfgParseState where
  vars : List (String × String)
  classes : List (String × ClassDef)
  dirs : List (String × DirTemplate)
  files : List (String × FileTemplate)
  deriving Repr

/-- One iteration of the line loop of `PipelineCfg.parse`: strip, skip
blanks, then match the four line shapes in priority order, first match
wins, non-matching lines are ignored. -/
def cfgLineStep (st : CfgParseState) (raw : List Char) : CfgParseState :=
  let line := stripL (stripCommentsL raw)
  if line = [] then st
  else
    match matchVarL line with
    | some (n, v) => { st with vars := upsertA st.vars n v }
    | none =>
      match matchClassL line with
      | some (n, disp, par) =>
        { st with classes := upsertA st.classes n ⟨n, String.mk (stripL disp.data), par⟩ }
      | none =>
        match matchDirL line with
        | some (n, tpl, lvl) => { st with dirs := upsertA st.dirs n ⟨n, tpl, lvl⟩ }
        | none =>
          match matchFileL line with
          | some (n, tpl, dref, lvl) =>
            { st with files := upsertA st.files n ⟨n, tpl, dref, lvl⟩ }
          | none => st

/-- The reverse class-to-children map built at the end of
`PipelineCfg.parse`. -/
def childClassesOf (classes : List (String × ClassDef)) : List (String × List String) :=
  classes.foldl
    (fun acc kv =>
      match kv.2.parent with
      | some p => if p ≠ "" then appendAtKey acc p kv.2.name else acc
      | none => acc)
    []

/-- `PipelineCfg.parse`: seed the variable map with `extra_vars`, fold the
line loop over `text.splitlines()`, then derive the child-class map. -/
def parsePipelineCfg (text : String) (extra_vars : List (String × String)) : PipelineCfg :=
  let init : CfgParseState := ⟨extra_vars.foldl (fun a kv => upsertA a kv.1 kv.2) [], [], [], []⟩
  let st := (splitLinesS text).foldl cfgLineStep init
  ⟨st.vars, st.classes, childClassesOf st.classes, st.dirs, st.files⟩

/-- State mutated by `_bootstrap_concrete_dirs`: the resolver's variable
map, its concrete-directory map, and the changed flag of the current
pass. -/
structure BootState where
  varmap : List (String × String)
  concrete : List (String × String)
  changed : Bool
  deriving Repr

/-- Body of the `for name, d in self.cfg.dirs.items()` loop inside
`_bootstrap_concrete_dirs`. -/
def bootDirStep (cwd : String) (st : BootState) (e : String × DirTemplate) : BootState :=
  if (lookupA st.concrete e.1).isSome then st
  else
    let expanded := String.mk (expandDollarsL (mergeMaps st.varmap st.concrete) e.2.template.data)
    if expanded.data.contains '@' then
      { st with varmap := upsertA st.varmap e.1 expanded }
    else
      let expanded2 := if isAbsS expanded then expanded else normJoin cwd expanded
      { varmap := upsertA st.varmap e.1 expanded2,
        concrete := upsertA st.concrete e.1 expanded2,
        changed := true }

/-- The `for _ in range(8)` convergence loop of
`_bootstrap_concrete_dirs`. -/
def bootLoop (cwd : String) (dirs : List (String × DirTemplate)) : Nat → BootState → BootState
  | 0, st => st
  | n + 1, st =>
    if st.changed then
      bootLoop cwd dirs n (dirs.foldl (bootDirStep cwd) { st with changed := false })
    else st

/-- `_bootstrap_concrete_dirs`, returning the updated variable map and
the concrete-directory map. -/
def bootstrapConcreteDirs (cfg : PipelineCfg) (cwd : String) (vm0 : List (String × String)) :
    List (String × String) × List (String × String) :=
  let st := bootLoop cwd cfg.dirs 8 ⟨vm0, [], true⟩
  (st.varmap, st.concrete)

/-- The initial closure of `_compute_ancestry`: each instance's
direct-parent set; keys absent from the instance dict default to the
empty set, as `closure.get(p, set())` does. -/
def ancInit (meta : Meta) : String → Finset String := fun x =>
  match lookupA meta.instances x with
  | some obj => obj.parents.toFinset
  | none => ∅

/-- The per-instance update of `_compute_ancestry`: union the instance's
set with the sets of everything already in it, keep the bigger set. -/
def ancStep (cl : String → Finset String) (changed : Bool) (inst : String) :
    (String → Finset String) × Bool :=
  if (cl inst).card < (cl inst ∪ (cl inst).biUnion cl).card then
    (fun x => if x = inst then cl inst ∪ (cl inst).biUnion cl else cl x, true)
  else (cl, changed)

/-- One full pass of `_compute_ancestry` over all instances. -/
def ancPass (keys : List String) (cl : String → Finset String) :
    (String → Finset String) × Bool :=
  keys.foldl (fun p i => ancStep p.1 p.2 i) (cl, false)

/-- The `for _ in range(64)` convergence loop of `_compute_ancestry`. -/
def ancLoop (keys : List String) : Nat → (String → Finset String) → Bool → (String → Finset String)
  | 0, cl, _ => cl
  | n + 1, cl, changed =>
    if changed then
      let p := ancPass keys cl
      ancLoop keys n p.1 p.2
    else cl

/-- `_compute_ancestry`. -/
def computeAncestry (meta : Meta) : String → Finset String :=
  ancLoop (meta.instances.map Prod.fst) 64 (ancInit meta) true

/-- All names occurring in any instance's parent list (used only for the
termination fuel of the BFS below). -/
def allParentNames (insts : List (String × Instance)) : Finset String :=
  insts.foldr (fun e acc => e.2.parents.toFinset ∪ acc) ∅

def totalParentCount (insts : List (String × Instance)) : Nat :=
  (insts.map (fun e => e.2.parents.length)).sum

/-- A bound on the number of remaining iterations of the BFS loop of
`_build_context_from_instance` from a given queue and visited set. -/
def bfsMeasure (insts : List (String × Instance)) (queue : List String)
    (seen : Finset String) : Nat :=
  ((allParentNames insts ∪ queue.toFinset) \ seen).card * (totalParentCount insts + 2)
    + queue.length

/-- `ctx[key] = val` guarded by `key not in ctx` (never overwrite). -/
def ctxAdd (ctx : List (String × String)) (key val : String) : List (String × String) :=
  if (lookupA ctx key).isSome then ctx else ctx ++ [(key, val)]

/-- The `while to_visit` loop of `_build_context_from_instance`: pop the
queue front, skip already-seen names, bind the popped instance's class
key if not already bound, and push its parents.  The `Nat` fuel keeps the
recursion structural; `bfsRun` supplies `bfsMeasure`, which strictly
decreases at every iteration, so the fuel never runs out. -/
def bfsFuel (insts : List (String × Instance)) :
    Nat → List String → Finset String → List (String × String) → List (String × String)
  | 0, _, _, ctx => ctx
  | _ + 1, [], _, ctx => ctx
  | n + 1, p :: rest, seen, ctx =>
    if p ∈ seen then bfsFuel insts n rest seen ctx
    else
      match lookupA insts p with
      | none => bfsFuel insts n rest (insert p seen) ctx
      | some pobj =>
        let ctx2 :=
          if pobj.class_name ≠ "" then ctxAdd ctx ("@" ++ pobj.class_name) p
          else ctx
        bfsFuel insts n (rest ++ pobj.parents) (insert p seen) ctx2

def bfsRun (insts : List (String × Instance)) (queue : List String) (seen : Finset String)
    (ctx : List (String × String)) : List (String × String) :=
  bfsFuel insts (bfsMeasure insts queue seen) queue seen ctx

/-- `_build_context_from_instance`: `none` for an unknown instance, else
the instance's own class binding followed by breadth-first ancestor
bindings, never overwriting. -/
def buildContextFromInstance (meta : Meta) (inst : String) :
    Option (List (String × String)) :=
  match lookupA meta.instances inst with
  | none => none
  | some obj =>
    let ctx0 := if obj.class_name ≠ "" then [("@" ++ obj.class_name, inst)] else []
    some (bfsRun meta.instances obj.parents ∅ ctx0)

/-- `_contexts_for_class_level`: one context per instance of the class
(falsy contexts — `None` or empty — are dropped); a falsy class level
yields the single empty context. -/
def contextsForClassLevel (meta : Meta) (class_level : Option String) :
    List (List (String × String)) :=
  match class_level with
  | none => [[]]
  | some lvl =>
    if lvl = "" then [[]]
    else
      ((lookupA meta.by_class lvl).getD []).filterMap (fun inst =>
        match buildContextFromInstance meta inst with
        | some ctx => if ctx = [] then none else some ctx
        | none => none)

/-- `_expand_placeholders`: dollar-expansion against the variable map
overlaid with the concrete directories, then `@`-substitution against
the supplied context. -/
def expandPlaceholders (vm cd : List (String × String)) (ph : List (String × String))
    (s : String) : String :=
  String.mk (expandAtsL ph (expandDollarsL (mergeMaps vm cd) s.data))

/-- `_resolve_dir`: `None` when an `@` placeholder survives expansion,
else the expansion anchored against the working directory if relative. -/
def resolveDir (cwd : String) (vm cd : List (String × String)) (d : DirTemplate)
    (ph : List (String × String)) : Option String :=
  let s := expandPlaceholders vm cd ph d.template
  if s.data.contains '@' then none
  else some (if isAbsS s then s else normJoin cwd s)

/-- `DirTemplate.tokens` / `FileTemplate.tokens`. -/
def atTokenSet (s : String) : Finset String := (atTokensL s.data).toFinset

/-- `_ph_needed_for_file` (computed by `_build_index` but never used
afterwards; mirrored for fidelity). -/
def phNeededForFile (f : FileTemplate) (d : DirTemplate) : Finset String :=
  (atTokenSet f.tpl ∪ atTokenSet d.template).image (fun t => "@" ++ t)

/-- The raw-override loop of `_build_index` for one file template: an
instance whose properties contain the file key contributes a
`source = "raw"` record with its own placeholder context. -/
def rawRecordsStep (cwd : String) (vm cd : List (String × String)) (meta : Meta)
    (fname : String) (lvl : Option String)
    (acc : List (String × List IndexRecord)) (e : String × Instance) :
    List (String × List IndexRecord) :=
  match lookupA e.2.props fname with
  | none => acc
  | some pv =>
    let path0 := String.mk (expandDollarsL (mergeMaps vm cd) pv.data)
    let path := if isAbsS path0 then path0 else normJoin cwd path0
    let ctx := (buildContextFromInstance meta e.1).getD []
    appendAtKey acc fname ⟨path, ctx, lvl, "raw"⟩

/-- The template-derived loop of `_build_index` for one context: skip the
context when the directory cannot resolve or an `@` survives in the file
name, else join, normalize, and record with the source tag `"out"` used
by the code. -/
def templateRecordsStep (cwd : String) (vm cd : List (String × String))
    (fname : String) (ftemp : FileTemplate) (dtemp : DirTemplate)
    (acc : List (String × List IndexRecord)) (base_ctx : List (String × String)) :
    List (String × List IndexRecord) :=
  match resolveDir cwd vm cd dtemp base_ctx with
  | none => acc
  | some full_dir =>
    let fname_expanded := expandPlaceholders vm cd base_ctx ftemp.tpl
    if fname_expanded.data.contains '@' then acc
    else
      appendAtKey acc fname
        ⟨normJoin full_dir fname_expanded, base_ctx, ftemp.class_level, "out"⟩

/-- Processing of one `(fname, ftemp)` entry of `cfg.files` inside
`_build_index`: skip the whole entry when the directory reference is
unknown, else raw overrides first, then template-derived records. -/
def processFileEntry (cfg : PipelineCfg) (meta : Meta) (cwd : String)
    (vm cd : List (String × String))
    (acc : List (String × List IndexRecord)) (e : String × FileTemplate) :
    List (String × List IndexRecord) :=
  match lookupA cfg.dirs e.2.dir_ref with
  | none => acc
  | some dtemp =>
    let _required_ph := phNeededForFile e.2 dtemp
    let contexts := contextsForClassLevel meta e.2.class_level
    let acc1 := meta.instances.foldl (rawRecordsStep cwd vm cd meta e.1 e.2.class_level) acc
    contexts.foldl (templateRecordsStep cwd vm cd e.1 e.2 dtemp) acc1

/-- `_build_index`. -/
def buildIndex (cfg : PipelineCfg) (meta : Meta) (cwd : String)
    (vm cd : List (String × String)) : List (String × List IndexRecord) :=
  cfg.files.foldl (processFileEntry cfg meta cwd vm cd) []

structure LapResolver where
  cfg : PipelineCfg
  meta : Meta
  cwd : String
  varmap : List (String × String)
  concrete_dirs : List (String × String)
  ancestry : String → Finset String
  index : List (String × List IndexRecord)

/-- The `LapResolver` constructor.  `cwd` is the working directory; the
source substitutes `os.getcwd()` (an absolute path) when none is given,
so an explicit `cwd` models both cases. -/
def mkResolver (cfg : PipelineCfg) (meta : Meta) (cwd : String) : LapResolver :=
  let vm0 := meta.keys.foldl (fun a kv => upsertA a kv.1 kv.2) cfg.vars
  let bc := bootstrapConcreteDirs cfg cwd vm0
  { cfg := cfg, meta := meta, cwd := cwd,
    varmap := bc.1, concrete_dirs := bc.2,
    ancestry := computeAncestry meta,
    index := buildIndex cfg meta cwd bc.1 bc.2 }

/-- Filter-key normalisation shared by `get` and `records`: bare class
names get an `@` prepended. -/
def normFilterKey (k : String) : String :=
  match k.data with
  | '@' :: _ => k
  | _ => "@" ++ k

/-- The `norm_filters` dict comprehension: normalise each keyword key;
later duplicates overwrite earlier ones. -/
def normFilters (filters : List (String × String)) : List (String × String) :=
  filters.foldl (fun a kv => upsertA a (normFilterKey kv.1) kv.2) []

/-- `all(ctx.get(k) == v for k, v in norm_filters.items())`. -/
def matchesFilters (rec : IndexRecord) (filters : List (String × String)) : Bool :=
  (normFilters filters).all (fun kv => lookupA rec.placeholders kv.1 == some kv.2)

/-- `LapResolver.get`: `source` is the optional second positional
argument (a falsy value — `None` or the empty string — disables the
source check) and `filters` are the keyword arguments. -/
def getQ (r : LapResolver) (file_key : String) (source : Option String)
    (filters : List (String × String)) : List String :=
  match lookupA r.index file_key with
  | none => []
  | some recs =>
    recs.filterMap (fun rec =>
      if matchesFilters rec filters then
        match source with
        | some s => if s ≠ "" ∧ rec.source ≠ s then none else some rec.path
        | none => some rec.path
      else none)

/-- `LapResolver.records`: keyword arguments as a list.  Note the method
has no separate `source` parameter — a `source=...` argument lands in
`filters` like any other keyword. -/
def recordsQ (r : LapResolver) (file_key : String) (filters : List (String × String)) :
    List IndexRecord :=
  match lookupA r.index file_key with
  | none => []
  | some recs => recs.filter (fun rec => matchesFilters rec filters)

/-! ## Concrete scenarios -/

/-- The spec's example configuration: classes `Sample` and `Cohort`
(parent `Sample`), directory template `outdir = $base/@Sample`, file
template `summary_file = summary.txt dir outdir class_level Sample`. -/
def cfgScenario : PipelineCfg :=
  { vars := [],
    classes := [("Sample", ⟨"Sample", "Sample", none⟩),
                ("Cohort", ⟨"Cohort", "Cohort", some "Sample"⟩)],
    child_classes := [("Sample", ["Cohort"])],
    dirs := [("outdir", ⟨"outdir", "$base/@Sample", none⟩)],
    files := [("summary_file", ⟨"summary_file", "summary.txt", "outdir", some "Sample"⟩)] }

/-- The spec's example metadata: variable `base = /data` and instance
`s1` of class `Sample`. -/
def metaScenario : Meta :=
  { keys := [("base", "/data")],
    config_path := none,
    instances := [("s1", ⟨"s1", "Sample", [], []⟩)],
    by_class := [("Sample", ["s1"])] }

/-- Configuration whose only directory template references the undefined
variable `$missing`. -/
def cfgDollar : PipelineCfg :=
  { vars := [],
    classes := [],
    child_classes := [],
    dirs := [("outdir", ⟨"outdir", "$missing/sub", none⟩)],
    files := [("f", ⟨"f", "a.txt", "outdir", none⟩)] }

/-- Metadata with one classless instance carrying a raw override for the
file key `f` whose value contains an `@` token and is not normalized. -/
def metaDollar : Meta :=
  { keys := [],
    config_path := none,
    instances := [("i1", ⟨"i1", "", [], [("f", "/raw//x/../@Y.txt")]⟩)],
    by_class := [] }

/-- Configuration with a single file template whose `dir_ref` names no
declared directory template. -/
def cfgMissingDir : PipelineCfg :=
  { vars := [], classes := [], child_classes := [],
    dirs := [],
    files := [("g", ⟨"g", "b.txt", "nodir", none⟩)] }

def metaEmpty : Meta :=
  { keys := [], config_path := none, instances := [], by_class := [] }

/-- The value the line loop of `PipelineCfg.parse` would assign to the
variable `n` from one raw line, if any. -/
def lineVarAssign (n : String) (raw : List Char) : Option String :=
  let line := stripL (stripCommentsL raw)
  if line = [] then none
  else
    match matchVarL line with
    | some (n', v) => if n' = n then some v else none
    | none => none

/-- The values assigned to the variable `n` by the matching assignment
lines of a list of raw lines, in line order. -/
def linesVarAssigns (lines : List (List Char)) (n : String) : List String :=
  lines.filterMap (lineVarAssign n)

/-- The values assigned to the variable `n` by a configuration text. -/
def cfgVarAssigns (text : String) (n : String) : List String :=
  linesVarAssigns (splitLinesS text) n

/-- Metadata with the parent chain `a → b → c` used as the C4 witness. -/
def metaChain : Meta :=
  { keys := [], config_path := none,
    instances := [("a", ⟨"a", "", ["b"], []⟩), ("b", ⟨"b", "", ["c"], []⟩)],
    by_class := [] }

/-- A canonical normalized path component: nonempty, not `.` or `..`,
and slash-free (the shape of every component surviving the normpath
component loop of an absolute path). -/
def goodComp (x : List Char) : Prop :=
  x ≠ [] ∧ x ≠ ['.'] ∧ x ≠ ['.', '.'] ∧ '/' ∉ x

/-- The visit order of the BFS loop of `_build_context_from_instance`:
the names of the known instances popped unseen from the queue, in pop
order.  Same recursion and fuel as `bfsFuel`, recording the visit order
instead of building the context. -/
def bfsOrderFuel (insts : List (String × Instance)) :
    Nat → List String → Finset String → List String
  | 0, _, _ => []
  | _ + 1, [], _ => []
  | n + 1, p :: rest, seen =>
    if p ∈ seen then bfsOrderFuel insts n rest seen
    else
      match lookupA insts p with
      | none => bfsOrderFuel insts n rest (insert p seen)
      | some pobj => p :: bfsOrderFuel insts n (rest ++ pobj.parents) (insert p seen)

def bfsOrderRun (insts : List (String × Instance)) (queue : List String)
    (seen : Finset String) : List String :=
  bfsOrderFuel insts (bfsMeasure insts queue seen) queue seen

/-- The class binding a visited instance contributes to the context. -/
def visitBinding (insts : List (String × Instance)) (p : String) :
    Option (String × String) :=
  match lookupA insts p with
  | some o => if o.class_name = "" then none else some ("@" ++ o.class_name, p)
  | none => none

def visitBindings (insts : List (String × Instance)) (order : List String) :
    List (String × String) :=
  order.filterMap (visitBinding insts)

/-- Folding insert-if-absent bindings into a context. -/
def applyBindings (ctx bs : List (String × String)) : List (String × String) :=
  bs.foldl (fun c kv => ctxAdd c kv.1 kv.2) ctx

/-- Modelled from the spec: the closest-first binding order of a
placeholder context — the instance's own class binding first, then the
bindings of its ancestors in breadth-first visit order.  The claim is
that the built context resolves every key to the first binding of this
list. -/
def contextSpecOrder (meta : Meta) (inst : String) : List (String × String) :=
  match lookupA meta.instances inst with
  | none => []
  | some obj =>
    (if obj.class_name = "" then [] else [("@" ++ obj.class_name, inst)]) ++
      visitBindings meta.instances (bfsOrderRun meta.instances obj.parents ∅)

/-- Metadata with an instance of class `A` whose two parents both carry
class `B`; breadth-first order makes `p1` the representative of `B`. -/
def metaTwoParents : Meta :=
  { keys := [], config_path := none,
    instances := [("x1", ⟨"x1", "A", ["p1", "p2"], []⟩),
                  ("p1", ⟨"p1", "B", [], []⟩),
                  ("p2", ⟨"p2", "B", [], []⟩)],
    by_class := [("A", ["x1"]), ("B", ["p1", "p2"])] }

/-- The amended stored-path property: every stored path is absolute, and
template-derived records (tagged `"out"` by the code) are additionally
`@`-free and normalized. -/
def cleanRecord (r : IndexRecord) : Prop :=
  isAbsS r.path = true ∧
    (r.source = "out" → r.path.data.contains '@' = false ∧ normpathS r.path = r.path)

/-! ## Claims -/

/-- C1: in the spec's example scenario, `records("summary_file")` on the
constructed resolver returns exactly one record, with path
`/data/s1/summary.txt` and placeholders `{"@Sample": "s1"}` as claimed —
but the code stores the source tag `"out"`, not `"template"` as the
claim (and the resolver's own docstring, `source: "template|override"`)
state. -/
theorem example_scenario_single_record_has_source_out :
    recordsQ (mkResolver cfgScenario metaScenario "/work") "summary_file" [] =
      [⟨"/data/s1/summary.txt", [("@Sample", "s1")], some "Sample", "out"⟩] ∧
    "out" ≠ "template" := by
  exact ⟨by decide, by decide⟩

/-- C3: the invariant that every record's source is `"raw"` or
`"template"` fails on the code: the template-derived record of the
example scenario carries source `"out"`, so `get` with
`source="template"` selects nothing while `source="out"` selects the
template-derived path.  (The equality-filter part of the claim is what
the code implements; only the tag name diverges.) -/
theorem template_records_tagged_out_so_template_filter_empty :
    (recordsQ (mkResolver cfgScenario metaScenario "/work") "summary_file" []).map
        (fun r => r.source) = ["out"] ∧
    getQ (mkResolver cfgScenario metaScenario "/work") "summary_file" (some "template") [] = [] ∧
    getQ (mkResolver cfgScenario metaScenario "/work") "summary_file" (some "out") [] =
      ["/data/s1/summary.txt"] := by
  exact ⟨by decide, by decide, by decide⟩

/-- C2 counterexample: stored record paths are not always
placeholder-free or normalized.  With directory template
`outdir = $missing/sub` (an undefined variable) and a raw override
`/raw//x/../@Y.txt`, the built index stores a template-derived path that
still contains the `$missing` token and a raw path that contains an `@`
token and is not normalized. -/
theorem stored_paths_can_keep_placeholder_text :
    lookupA (mkResolver cfgDollar metaDollar "/w").index "f" =
      some [⟨"/raw//x/../@Y.txt", [], none, "raw"⟩,
            ⟨"/w/$missing/sub/a.txt", [], none, "out"⟩] ∧
    "/w/$missing/sub/a.txt".data.contains '$' = true ∧
    "/raw//x/../@Y.txt".data.contains '@' = true ∧
    normpathS "/raw//x/../@Y.txt" ≠ "/raw//x/../@Y.txt" := by
  exact ⟨by decide, by decide, by decide, by decide⟩

/-- C6: `get` with no source argument and no filters returns exactly the
`path` fields of `records` with no filters, in the same order. -/
theorem get_no_filters_is_paths_of_records (cfg : PipelineCfg) (meta : Meta)
    (cwd k : String) :
    getQ (mkResolver cfg meta cwd) k none [] =
      (recordsQ (mkResolver cfg meta cwd) k []).map (fun r => r.path) := by
  unfold getQ recordsQ
  cases lookupA (mkResolver cfg meta cwd).index k with
  | none => rfl
  | some recs =>
    induction recs with
    | nil => rfl
    | cons h t ih => simpa [matchesFilters, normFilters] using ih

/-- C8: a file key absent from the built index yields an empty result
from both `get` and `records`, for any source argument and filters (both
functions are total, so no error is possible). -/
theorem unknown_key_yields_empty (cfg : PipelineCfg) (meta : Meta) (cwd k : String)
    (source : Option String) (filters : List (String × String))
    (h : lookupA (mkResolver cfg meta cwd).index k = none) :
    getQ (mkResolver cfg meta cwd) k source filters = [] ∧
    recordsQ (mkResolver cfg meta cwd) k filters = [] := by
  unfold getQ recordsQ
  rw [h]
  exact ⟨rfl, rfl⟩

/-- Witness for C8 at the example scenario and an undeclared key. -/
theorem unknown_key_yields_empty_witness :
    getQ (mkResolver cfgScenario metaScenario "/work") "nosuch" (some "raw")
        [("Sample", "s1")] = [] ∧
    recordsQ (mkResolver cfgScenario metaScenario "/work") "nosuch" [("Sample", "s1")] = [] :=
  unknown_key_yields_empty cfgScenario metaScenario "/work" "nosuch" (some "raw")
    [("Sample", "s1")] (by decide)

/-- C10: a `source=s` keyword passed to `records` is treated as a
placeholder filter: the key is normalised to `"@source"` and exactly the
records whose placeholder map binds `"@source"` to `s` are returned —
the record's `source` field is never consulted. -/
theorem records_source_kwarg_is_placeholder_filter (r : LapResolver) (k s : String) :
    recordsQ r k [("source", s)] =
      (match lookupA r.index k with
       | none => []
       | some recs =>
         recs.filter (fun rec => lookupA rec.placeholders "@source" == some s)) := by
  unfold recordsQ
  cases lookupA r.index k with
  | none => rfl
  | some recs =>
    have h1 : normFilters [("source", s)] = [("@source", s)] := by
      have hk : normFilterKey "source" = "@source" := by decide
      simp [normFilters, upsertA, hk]
    unfold matchesFilters
    rw [h1]
    simp [List.all_cons]

/-! ## Association-list lemmas -/

theorem lookupA_upsertA_self {α : Type} (l : List (String × α)) (k : String) (v : α) :
    lookupA (upsertA l k v) k = some v := by
  induction l with
  | nil => simp [upsertA, lookupA]
  | cons h t ih =>
    obtain ⟨k', v'⟩ := h
    by_cases hk : k' = k
    · simp [upsertA, hk, lookupA]
    · simp [upsertA, hk, lookupA, ih]

theorem lookupA_upsertA_ne {α : Type} (l : List (String × α)) (k k' : String) (v : α)
    (h : k' ≠ k) :
    lookupA (upsertA l k' v) k = lookupA l k := by
  induction l with
  | nil => simp [upsertA, lookupA, h]
  | cons e t ih =>
    obtain ⟨k0, v0⟩ := e
    by_cases hk : k0 = k'
    · simp [upsertA, hk, lookupA, h]
    · simp only [upsertA, if_neg hk, lookupA]
      by_cases hk2 : k0 = k
      · simp [hk2]
      · simp [hk2, ih]

theorem lookupA_appendAtKey_ne {α : Type} (l : List (String × List α)) (k k' : String)
    (v : α) (h : k' ≠ k) :
    lookupA (appendAtKey l k' v) k = lookupA l k := by
  induction l with
  | nil => simp [appendAtKey, lookupA, h]
  | cons e t ih =>
    obtain ⟨k0, l0⟩ := e
    by_cases hk : k0 = k'
    · simp [appendAtKey, hk, lookupA, h]
    · simp only [appendAtKey, if_neg hk, lookupA]
      by_cases hk2 : k0 = k
      · simp [hk2]
      · simp [hk2, ih]

/-! ## C7: a file template with an unknown directory reference -/

theorem rawRecordsStep_lookup_ne (cwd : String) (vm cd : List (String × String))
    (meta : Meta) (fname : String) (lvl : Option String)
    (acc : List (String × List IndexRecord)) (e : String × Instance) (k : String)
    (h : fname ≠ k) :
    lookupA (rawRecordsStep cwd vm cd meta fname lvl acc e) k = lookupA acc k := by
  unfold rawRecordsStep
  cases lookupA e.2.props fname with
  | none => rfl
  | some pv => exact lookupA_appendAtKey_ne _ _ _ _ h

theorem templateRecordsStep_lookup_ne (cwd : String) (vm cd : List (String × String))
    (fname : String) (ftemp : FileTemplate) (dtemp : DirTemplate)
    (acc : List (String × List IndexRecord)) (base_ctx : List (String × String)) (k : String)
    (h : fname ≠ k) :
    lookupA (templateRecordsStep cwd vm cd fname ftemp dtemp acc base_ctx) k =
      lookupA acc k := by
  unfold templateRecordsStep
  cases resolveDir cwd vm cd dtemp base_ctx with
  | none => rfl
  | some fd =>
    dsimp only
    split
    · rfl
    · exact lookupA_appendAtKey_ne _ _ _ _ h

theorem processFileEntry_lookup_ne (cfg : PipelineCfg) (meta : Meta) (cwd : String)
    (vm cd : List (String × String)) (acc : List (String × List IndexRecord))
    (e : String × FileTemplate) (k : String) (h : e.1 ≠ k) :
    lookupA (processFileEntry cfg meta cwd vm cd acc e) k = lookupA acc k := by
  unfold processFileEntry
  cases lookupA cfg.dirs e.2.dir_ref with
  | none => rfl
  | some dtemp =>
    have htpl : ∀ (a : List (String × List IndexRecord)) (ctx : List (String × String)),
        lookupA (templateRecordsStep cwd vm cd e.1 e.2 dtemp a ctx) k = lookupA a k :=
      fun a ctx => templateRecordsStep_lookup_ne cwd vm cd e.1 e.2 dtemp a ctx k h
    have hraw : ∀ (a : List (String × List IndexRecord)) (i : String × Instance),
        lookupA (rawRecordsStep cwd vm cd meta e.1 e.2.class_level a i) k = lookupA a k :=
      fun a i => rawRecordsStep_lookup_ne cwd vm cd meta e.1 e.2.class_level a i k h
    have hfold : ∀ {β : Type} (f : List (String × List IndexRecord) → β →
          List (String × List IndexRecord)) (l : List β) (a : List (String × List IndexRecord)),
        (∀ a2 b, lookupA (f a2 b) k = lookupA a2 k) →
        lookupA (l.foldl f a) k = lookupA a k := by
      intro β f l
      induction l with
      | nil => intro a _; rfl
      | cons b t ih => intro a hp; rw [List.foldl_cons, ih _ hp, hp]
    rw [hfold _ _ _ htpl, hfold _ _ _ hraw]

theorem processFileEntry_missing_dir (cfg : PipelineCfg) (meta : Meta) (cwd : String)
    (vm cd : List (String × String)) (acc : List (String × List IndexRecord))
    (e : String × FileTemplate) (hd : lookupA cfg.dirs e.2.dir_ref = none) :
    processFileEntry cfg meta cwd vm cd acc e = acc := by
  unfold processFileEntry
  rw [hd]

theorem fold_processFile_lookup_not_mem (cfg : PipelineCfg) (meta : Meta) (cwd : String)
    (vm cd : List (String × String)) (k : String) :
    ∀ (files : List (String × FileTemplate)) (acc : List (String × List IndexRecord)),
      (∀ e ∈ files, e.1 ≠ k) →
      lookupA (files.foldl (processFileEntry cfg meta cwd vm cd) acc) k = lookupA acc k := by
  intro files
  induction files with
  | nil => intro acc _; rfl
  | cons e t ih =>
    intro acc h
    rw [List.foldl_cons, ih _ (fun e2 he2 => h e2 (List.mem_cons_of_mem _ he2)),
      processFileEntry_lookup_ne cfg meta cwd vm cd acc e k (h e (List.mem_cons_self _ _))]

theorem buildIndex_lookup_none_of_missing_dir (cfg : PipelineCfg) (meta : Meta)
    (cwd : String) (vm cd : List (String × String)) (k : String) (ft : FileTemplate)
    (hd : lookupA cfg.dirs ft.dir_ref = none) :
    ∀ (files : List (String × FileTemplate)) (acc : List (String × List IndexRecord)),
      (files.map Prod.fst).Nodup → lookupA files k = some ft → lookupA acc k = none →
      lookupA (files.foldl (processFileEntry cfg meta cwd vm cd) acc) k = none := by
  intro files
  induction files with
  | nil => intro acc _ hlk _; cases hlk
  | cons e t ih =>
    intro acc hnd hlk hacc
    obtain ⟨k0, ft0⟩ := e
    rw [List.map_cons, List.nodup_cons] at hnd
    by_cases hk : k0 = k
    · subst hk
      have hft : ft0 = ft := by
        have := hlk
        rw [show lookupA ((k0, ft0) :: t) k0 = some ft0 by simp [lookupA]] at this
        exact Option.some_inj.mp this
      subst hft
      rw [List.foldl_cons, processFileEntry_missing_dir cfg meta cwd vm cd acc _ hd]
      rw [fold_processFile_lookup_not_mem cfg meta cwd vm cd k0 t acc]
      · exact hacc
      · intro e2 he2 he2k
        exact hnd.1 (List.mem_map.mpr ⟨e2, he2, he2k⟩)
    · rw [List.foldl_cons]
      apply ih _ hnd.2
      · have := hlk
        rw [show lookupA ((k0, ft0) :: t) k = lookupA t k by simp [lookupA, hk]] at this
        exact this
      · rw [processFileEntry_lookup_ne cfg meta cwd vm cd acc _ k hk]
        exact hacc

/-- C7: a file template whose `dir_ref` names no declared directory
template contributes no record at all to the index — neither raw
overrides nor template-derived records — and both queries on its key
return an empty result.  (The key-uniqueness hypothesis holds by
construction for any parsed configuration, whose `files` is a dict.) -/
theorem missing_dir_ref_key_absent_and_queries_empty (cfg : PipelineCfg) (meta : Meta)
    (cwd k : String) (ft : FileTemplate) (source : Option String)
    (filters : List (String × String))
    (hnd : (cfg.files.map Prod.fst).Nodup)
    (hf : lookupA cfg.files k = some ft)
    (hd : lookupA cfg.dirs ft.dir_ref = none) :
    lookupA (mkResolver cfg meta cwd).index k = none ∧
    getQ (mkResolver cfg meta cwd) k source filters = [] ∧
    recordsQ (mkResolver cfg meta cwd) k filters = [] := by
  have hidx : lookupA (mkResolver cfg meta cwd).index k = none :=
    buildIndex_lookup_none_of_missing_dir cfg meta cwd _ _ k ft hd cfg.files [] hnd hf rfl
  refine ⟨hidx, ?_, ?_⟩
  · unfold getQ; rw [hidx]
  · unfold recordsQ; rw [hidx]



/-- Witness for C7 at a concrete configuration. -/
theorem missing_dir_ref_key_absent_witness :
    lookupA (mkResolver cfgMissingDir metaEmpty "/w").index "g" = none ∧
    getQ (mkResolver cfgMissingDir metaEmpty "/w") "g" none [] = [] ∧
    recordsQ (mkResolver cfgMissingDir metaEmpty "/w") "g" [] = [] :=
  missing_dir_ref_key_absent_and_queries_empty cfgMissingDir metaEmpty "/w" "g"
    ⟨"g", "b.txt", "nodir", none⟩ none [] (by decide) (by decide) (by decide)

/-! ## C9: configuration text overrides seeded variables -/



theorem cfgLineStep_vars_eq (st : CfgParseState) (raw : List Char) :
    (cfgLineStep st raw).vars =
      (if stripL (stripCommentsL raw) = [] then st.vars
       else
         match matchVarL (stripL (stripCommentsL raw)) with
         | some (n, v) => upsertA st.vars n v
         | none => st.vars) := by
  by_cases h : stripL (stripCommentsL raw) = []
  · simp [cfgLineStep, h]
  · cases hm : matchVarL (stripL (stripCommentsL raw)) with
    | some nv =>
      obtain ⟨n, v⟩ := nv
      simp [cfgLineStep, h, hm]
    | none =>
      cases hc : matchClassL (stripL (stripCommentsL raw)) with
      | some x =>
        obtain ⟨a, b, cp⟩ := x
        simp [cfgLineStep, h, hm, hc]
      | none =>
        cases hdm : matchDirL (stripL (stripCommentsL raw)) with
        | some x =>
          obtain ⟨a, b, lv⟩ := x
          simp [cfgLineStep, h, hm, hc, hdm]
        | none =>
          cases hfm : matchFileL (stripL (stripCommentsL raw)) with
          | some x =>
            obtain ⟨a, b, c2, lv⟩ := x
            simp [cfgLineStep, h, hm, hc, hdm, hfm]
          | none => simp [cfgLineStep, h, hm, hc, hdm, hfm]

theorem cfgLineStep_vars_lookup_of_no_assign (st : CfgParseState) (raw : List Char)
    (n : String) (h : lineVarAssign n raw = none) :
    lookupA ((cfgLineStep st raw).vars) n = lookupA st.vars n := by
  rw [cfgLineStep_vars_eq]
  unfold lineVarAssign at h
  by_cases hl : stripL (stripCommentsL raw) = []
  · simp [hl]
  · simp only [hl, if_neg, if_false] at h ⊢
    cases hm : matchVarL (stripL (stripCommentsL raw)) with
    | none => simp
    | some nv =>
      obtain ⟨n', v⟩ := nv
      rw [hm] at h
      simp only at h
      by_cases hn : n' = n
      · rw [if_pos hn] at h; cases h
      · simp only [hn, if_false]
        exact lookupA_upsertA_ne st.vars n n' v hn

theorem cfgLineStep_vars_of_assign (st : CfgParseState) (raw : List Char)
    (n v : String) (h : lineVarAssign n raw = some v) :
    lookupA ((cfgLineStep st raw).vars) n = some v := by
  rw [cfgLineStep_vars_eq]
  unfold lineVarAssign at h
  by_cases hl : stripL (stripCommentsL raw) = []
  · rw [if_pos hl] at h; cases h
  · simp only [hl, if_false] at h ⊢
    cases hm : matchVarL (stripL (stripCommentsL raw)) with
    | none => rw [hm] at h; cases h
    | some nv =>
      obtain ⟨n', v'⟩ := nv
      rw [hm] at h
      simp only at h
      by_cases hn : n' = n
      · rw [if_pos hn] at h
        subst hn
        cases h
        exact lookupA_upsertA_self st.vars n' v
      · rw [if_neg hn] at h; cases h

theorem fold_cfgLineStep_lookup_no_assigns (n : String) :
    ∀ (lines : List (List Char)) (st : CfgParseState),
      linesVarAssigns lines n = [] →
      lookupA ((lines.foldl cfgLineStep st).vars) n = lookupA st.vars n := by
  intro lines
  induction lines with
  | nil => intro st _; rfl
  | cons raw t ih =>
    intro st h
    unfold linesVarAssigns at h
    rw [List.filterMap_cons] at h
    cases hh : lineVarAssign n raw with
    | some v => rw [hh] at h; cases h
    | none =>
      rw [hh] at h
      rw [List.foldl_cons, ih _ h, cfgLineStep_vars_lookup_of_no_assign st raw n hh]

theorem fold_cfgLineStep_lookup_last_assign (n v : String) :
    ∀ (lines : List (List Char)) (st : CfgParseState),
      (linesVarAssigns lines n).getLast? = some v →
      lookupA ((lines.foldl cfgLineStep st).vars) n = some v := by
  intro lines
  induction lines with
  | nil => intro st h; cases h
  | cons raw t ih =>
    intro st h
    unfold linesVarAssigns at h
    rw [List.filterMap_cons] at h
    cases hh : lineVarAssign n raw with
    | none =>
      rw [hh] at h
      rw [List.foldl_cons]
      exact ih _ h
    | some v0 =>
      rw [hh] at h
      cases ht : linesVarAssigns t n with
      | nil =>
        rw [show linesVarAssigns t n = List.filterMap (lineVarAssign n) t from rfl] at ht
        rw [ht, List.getLast?_singleton] at h
        have hv : v0 = v := Option.some_inj.mp h
        rw [hv] at hh
        rw [List.foldl_cons, fold_cfgLineStep_lookup_no_assigns n t _ ht]
        exact cfgLineStep_vars_of_assign st raw n v hh

      | cons a l =>
        rw [show linesVarAssigns t n = List.filterMap (lineVarAssign n) t from rfl] at ht
        rw [ht, List.getLast?_cons_cons] at h
        rw [List.foldl_cons]
        exact ih _ (by
          rw [show linesVarAssigns t n = List.filterMap (lineVarAssign n) t from rfl, ht]
          exact h)

/-- C9: a variable assignment in the configuration text overwrites a
seeded `extra_vars` value of the same name — whatever the seeds, the
parsed variable map holds the text's (last) assigned value. -/
theorem config_text_overrides_seeded_vars (text : String)
    (extra_vars : List (String × String)) (n v : String)
    (h : (cfgVarAssigns text n).getLast? = some v) :
    lookupA (parsePipelineCfg text extra_vars).vars n = some v := by
  unfold parsePipelineCfg
  exact fold_cfgLineStep_lookup_last_assign n v (splitLinesS text) _ h

/-! ## C4: transitivity of the ancestry closure -/

theorem lookupA_mem_keys {α : Type} (l : List (String × α)) (k : String) (v : α)
    (h : lookupA l k = some v) : k ∈ l.map Prod.fst := by
  induction l with
  | nil => cases h
  | cons e t ih =>
    obtain ⟨k0, v0⟩ := e
    rw [List.map_cons]
    by_cases hk : k0 = k
    · exact hk ▸ List.mem_cons_self _ _
    · simp only [lookupA, if_neg hk] at h
      exact List.mem_cons_of_mem _ (ih h)

theorem ancStep_mono (cl : String → Finset String) (changed : Bool) (inst x : String) :
    cl x ⊆ (ancStep cl changed inst).1 x := by
  unfold ancStep
  split
  · show cl x ⊆ if x = inst then cl inst ∪ (cl inst).biUnion cl else cl x
    by_cases hx : x = inst
    · rw [if_pos hx, hx]
      exact Finset.subset_union_left
    · rw [if_neg hx]
  · exact subset_rfl

theorem ancFold_mono (keys : List String) :
    ∀ (p : (String → Finset String) × Bool) (x : String),
      p.1 x ⊆ (keys.foldl (fun q i => ancStep q.1 q.2 i) p).1 x := by
  induction keys with
  | nil => intro p x; exact subset_rfl
  | cons k t ih =>
    intro p x
    rw [List.foldl_cons]
    exact (ancStep_mono p.1 p.2 k x).trans (ih _ x)

theorem ancLoop_mono (keys : List String) :
    ∀ (n : Nat) (cl : String → Finset String) (changed : Bool) (x : String),
      cl x ⊆ ancLoop keys n cl changed x := by
  intro n
  induction n with
  | zero => intro cl changed x; exact subset_rfl
  | succ m ih =>
    intro cl changed x
    unfold ancLoop
    by_cases hch : changed = true
    · subst hch
      rw [if_pos rfl]
      exact (ancFold_mono keys (cl, false) x).trans (ih _ _ x)
    · rw [if_neg hch]

theorem ancStep_catches (cl : String → Finset String) (changed : Bool) (A B C : String)
    (hB : B ∈ cl A) (hC : C ∈ cl B) : C ∈ (ancStep cl changed A).1 A := by
  have hstar : C ∈ cl A ∪ (cl A).biUnion cl :=
    Finset.mem_union_right _ (Finset.mem_biUnion.mpr ⟨B, hB, hC⟩)
  unfold ancStep
  split
  · show C ∈ if A = A then cl A ∪ (cl A).biUnion cl else cl A
    rw [if_pos rfl]
    exact hstar
  · next hlt =>
    show C ∈ cl A
    have heq : cl A = cl A ∪ (cl A).biUnion cl :=
      Finset.eq_of_subset_of_card_le Finset.subset_union_left (Nat.le_of_not_lt hlt)
    rw [heq]
    exact hstar

theorem ancFold_catches (keys : List String) (A B C : String) :
    ∀ (p : (String → Finset String) × Bool) (cl0 : String → Finset String),
      (∀ x, cl0 x ⊆ p.1 x) → A ∈ keys → B ∈ cl0 A → C ∈ cl0 B →
      C ∈ (keys.foldl (fun q i => ancStep q.1 q.2 i) p).1 A := by
  induction keys with
  | nil => intro p cl0 _ hA _ _; cases hA
  | cons k t ih =>
    intro p cl0 hsub hA hB hC
    rw [List.foldl_cons]
    rcases List.mem_cons.mp hA with hk | hA2
    · subst hk
      exact ancFold_mono t _ A (ancStep_catches p.1 p.2 A B C (hsub A hB) (hsub B hC))
    · exact ih (ancStep p.1 p.2 k) cl0
        (fun x => (hsub x).trans (ancStep_mono p.1 p.2 k x)) hA2 hB hC

/-- C4: if `B` is in `A`'s parent list and `C` is in `B`'s parent list,
then `C` is in the ancestry closure computed for `A` by the bounded
fixed-point iteration. -/
theorem ancestry_transitive (meta : Meta) (A B C : String) (objA objB : Instance)
    (hA : lookupA meta.instances A = some objA)
    (hB : lookupA meta.instances B = some objB)
    (hBA : B ∈ objA.parents) (hCB : C ∈ objB.parents) :
    C ∈ computeAncestry meta A := by
  unfold computeAncestry
  rw [show (64 : Nat) = 63 + 1 from rfl]
  unfold ancLoop
  rw [if_pos rfl]
  refine ancLoop_mono _ 63 _ _ A ?_
  refine ancFold_catches _ A B C (ancInit meta, false) (ancInit meta)
    (fun x => subset_rfl) ?_ ?_ ?_
  · exact lookupA_mem_keys meta.instances A objA hA
  · unfold ancInit
    rw [hA]
    exact List.mem_toFinset.mpr hBA
  · unfold ancInit
    rw [hB]
    exact List.mem_toFinset.mpr hCB



/-- Witness for C4: the grandparent `c` is in `a`'s closure. -/
theorem ancestry_transitive_witness : "c" ∈ computeAncestry metaChain "a" :=
  ancestry_transitive metaChain "a" "b" "c" ⟨"a", "", ["b"], []⟩ ⟨"b", "", ["c"], []⟩
    (by decide) (by decide) (by decide) (by decide)

/-- Witness for C9: the text value `fromcfg` wins over the seed `seed`. -/
theorem config_text_overrides_seeded_vars_witness :
    lookupA (parsePipelineCfg "base = fromcfg\nother = x" [("base", "seed")]).vars "base" =
      some "fromcfg" :=
  config_text_overrides_seeded_vars "base = fromcfg\nother = x" [("base", "seed")]
    "base" "fromcfg" (by decide)

/-! ## Path lemmas -/

theorem splitSlash_ne_nil (l : List Char) : splitSlash l ≠ [] := by
  cases l with
  | nil => simp [splitSlash]
  | cons c r =>
    unfold splitSlash
    by_cases hc : c = '/'
    · simp [hc]
    · simp only [if_neg hc]
      cases splitSlash r with
      | nil => simp
      | cons h t => simp

theorem mem_of_mem_splitSlash (c : Char) : ∀ (l x : List Char),
    x ∈ splitSlash l → c ∈ x → c ∈ l := by
  intro l
  induction l with
  | nil =>
    intro x hx hc
    simp [splitSlash] at hx
    subst hx
    cases hc
  | cons a r ih =>
    intro x hx hc
    unfold splitSlash at hx
    by_cases ha : a = '/'
    · rw [if_pos ha] at hx
      rcases List.mem_cons.mp hx with h1 | h2
      · subst h1; cases hc
      · exact List.mem_cons_of_mem _ (ih x h2 hc)
    · rw [if_neg ha] at hx
      cases hsp : splitSlash r with
      | nil => exact absurd hsp (splitSlash_ne_nil r)
      | cons h t =>
        rw [hsp] at hx
        rcases List.mem_cons.mp hx with h1 | h2
        · subst h1
          rcases List.mem_cons.mp hc with hca | hcr
          · subst hca; exact List.mem_cons_self _ _
          · exact List.mem_cons_of_mem _
              (ih h (by rw [hsp]; exact List.mem_cons_self _ _) hcr)
        · exact List.mem_cons_of_mem _
            (ih x (by rw [hsp]; exact List.mem_cons_of_mem _ h2) hc)

theorem not_slash_mem_splitSlash : ∀ (l x : List Char), x ∈ splitSlash l → '/' ∉ x := by
  intro l
  induction l with
  | nil =>
    intro x hx
    simp [splitSlash] at hx
    subst hx
    simp
  | cons a r ih =>
    intro x hx
    unfold splitSlash at hx
    by_cases ha : a = '/'
    · rw [if_pos ha] at hx
      rcases List.mem_cons.mp hx with h1 | h2
      · subst h1; simp
      · exact ih x h2
    · rw [if_neg ha] at hx
      cases hsp : splitSlash r with
      | nil => exact absurd hsp (splitSlash_ne_nil r)
      | cons h t =>
        rw [hsp] at hx
        rcases List.mem_cons.mp hx with h1 | h2
        · subst h1
          intro hmem
          rcases List.mem_cons.mp hmem with hc1 | hc2
          · exact ha hc1.symm
          · exact ih h (by rw [hsp]; exact List.mem_cons_self _ _) hc2
        · exact ih x (by rw [hsp]; exact List.mem_cons_of_mem _ h2)

theorem mem_joinSlash (c : Char) : ∀ (L : List (List Char)),
    c ∈ joinSlash L → (∃ x ∈ L, c ∈ x) ∨ c = '/' := by
  intro L
  induction L with
  | nil => intro h; cases h
  | cons x t ih =>
    intro h
    cases t with
    | nil => exact Or.inl ⟨x, List.mem_cons_self _ _, h⟩
    | cons y t2 =>
      rw [show joinSlash (x :: y :: t2) = x ++ '/' :: joinSlash (y :: t2) from rfl] at h
      rcases List.mem_append.mp h with h1 | h2
      · exact Or.inl ⟨x, List.mem_cons_self _ _, h1⟩
      · rcases List.mem_cons.mp h2 with hc | h3
        · exact Or.inr hc
        · rcases ih h3 with ⟨z, hz, hcz⟩ | hc
          · exact Or.inl ⟨z, List.mem_cons_of_mem _ hz, hcz⟩
          · exact Or.inr hc

theorem splitSlash_append_of_no_sep : ∀ (x : List Char), '/' ∉ x →
    ∀ (l : List Char) (h : List Char) (t : List (List Char)),
      splitSlash l = h :: t → splitSlash (x ++ l) = (x ++ h) :: t := by
  intro x
  induction x with
  | nil => intro _ l h t hl; simpa using hl
  | cons a r ih =>
    intro hx l h t hl
    have ha : a ≠ '/' := fun h2 => hx (h2 ▸ List.mem_cons_self _ _)
    rw [List.cons_append]
    unfold splitSlash
    rw [if_neg ha, ih (fun hm => hx (List.mem_cons_of_mem _ hm)) l h t hl]
    rfl

theorem splitSlash_no_sep : ∀ (x : List Char), '/' ∉ x → splitSlash x = [x] := by
  intro x
  induction x with
  | nil => intro _; rfl
  | cons a r ih =>
    intro hx
    have ha : a ≠ '/' := fun h2 => hx (h2 ▸ List.mem_cons_self _ _)
    unfold splitSlash
    rw [if_neg ha, ih (fun hm => hx (List.mem_cons_of_mem _ hm))]

theorem splitSlash_joinSlash : ∀ (L : List (List Char)), L ≠ [] →
    (∀ x ∈ L, '/' ∉ x) → splitSlash (joinSlash L) = L := by
  intro L
  induction L with
  | nil => intro h _; cases h rfl
  | cons x t ih =>
    intro _ hall
    cases t with
    | nil => exact splitSlash_no_sep x (hall x (List.mem_cons_self _ _))
    | cons y t2 =>
      have hx : '/' ∉ x := hall x (List.mem_cons_self _ _)
      have hrest : splitSlash (joinSlash (y :: t2)) = y :: t2 :=
        ih (by simp) (fun z hz => hall z (List.mem_cons_of_mem _ hz))
      have hslash : splitSlash ('/' :: joinSlash (y :: t2)) = [] :: y :: t2 := by
        unfold splitSlash
        rw [if_pos rfl, hrest]
      rw [show joinSlash (x :: y :: t2) = x ++ '/' :: joinSlash (y :: t2) from rfl]
      rw [splitSlash_append_of_no_sep x hx _ _ _ hslash]
      simp

theorem splitSlash_cons_slash (r : List Char) : splitSlash ('/' :: r) = [] :: splitSlash r :=
  rfl

theorem splitSlash_replicate_slash (l : List Char) : ∀ (k : Nat),
    splitSlash (List.replicate k '/' ++ l) = List.replicate k [] ++ splitSlash l := by
  intro k
  induction k with
  | zero => simp
  | succ m ih =>
    rw [List.replicate_succ, List.cons_append, splitSlash_cons_slash, ih,
      List.replicate_succ, List.cons_append]

theorem normStep_nil_comp (slashes : Nat) (acc : List (List Char)) :
    normStep slashes acc [] = acc := by
  unfold normStep
  rw [if_pos (Or.inl rfl)]

theorem normStep_push (slashes : Nat) (acc : List (List Char)) (x : List Char)
    (h1 : x ≠ []) (h2 : x ≠ ['.']) (h3 : x ≠ ['.', '.']) :
    normStep slashes acc x = acc ++ [x] := by
  unfold normStep
  rw [if_neg, if_pos (Or.inl h3)]
  rintro (h | h)
  exacts [h1 h, h2 h]

theorem normfold_replicate_nil (slashes : Nat) (acc : List (List Char)) : ∀ (k : Nat),
    (List.replicate k ([] : List Char)).foldl (normStep slashes) acc = acc := by
  intro k
  induction k with
  | zero => rfl
  | succ m ih =>
    rw [List.replicate_succ, List.foldl_cons, normStep_nil_comp]
    exact ih

theorem normfold_good_append (slashes : Nat) :
    ∀ (L : List (List Char)) (acc : List (List Char)),
      (∀ x ∈ L, x ≠ [] ∧ x ≠ ['.'] ∧ x ≠ ['.', '.']) →
      L.foldl (normStep slashes) acc = acc ++ L := by
  intro L
  induction L with
  | nil => intro acc _; simp
  | cons x t ih =>
    intro acc h
    rw [List.foldl_cons,
      normStep_push _ _ _ (h x (List.mem_cons_self _ _)).1
        (h x (List.mem_cons_self _ _)).2.1 (h x (List.mem_cons_self _ _)).2.2,
      ih _ (fun z hz => h z (List.mem_cons_of_mem _ hz))]
    simp

theorem mem_normfold (slashes : Nat) :
    ∀ (L : List (List Char)) (acc : List (List Char)) (x : List Char),
      x ∈ L.foldl (normStep slashes) acc → x ∈ acc ∨ x ∈ L := by
  intro L
  induction L with
  | nil => intro acc x h; exact Or.inl h
  | cons cmp t ih =>
    intro acc x h
    rw [List.foldl_cons] at h
    rcases ih _ x h with hacc | ht
    · unfold normStep at hacc
      split at hacc
      · exact Or.inl hacc
      · split at hacc
        · rcases List.mem_append.mp hacc with h1 | h2
          · exact Or.inl h1
          · exact Or.inr (by rw [List.mem_singleton.mp h2]; exact List.mem_cons_self _ _)
        · split at hacc
          · exact Or.inl (List.mem_of_mem_dropLast hacc)
          · exact Or.inl hacc
    · exact Or.inr (List.mem_cons_of_mem _ ht)

theorem normfold_abs_invariant (slashes : Nat) (hs : slashes ≠ 0) :
    ∀ (L : List (List Char)) (acc : List (List Char)),
      (∀ x ∈ L, '/' ∉ x) → (∀ x ∈ acc, goodComp x) →
      ∀ x ∈ L.foldl (normStep slashes) acc, goodComp x := by
  intro L
  induction L with
  | nil => intro acc _ hacc x hx; exact hacc x hx
  | cons cmp t ih =>
    intro acc hL hacc
    rw [List.foldl_cons]
    refine ih _ (fun z hz => hL z (List.mem_cons_of_mem _ hz)) ?_
    intro x hx
    unfold normStep at hx
    split at hx
    · exact hacc x hx
    · next hguard =>
      split at hx
      · next hpush =>
        rcases List.mem_append.mp hx with h1 | h2
        · exact hacc x h1
        · have hx2 : x = cmp := List.mem_singleton.mp h2
          subst hx2
          refine ⟨fun h => hguard (Or.inl h), fun h => hguard (Or.inr h), ?_,
            hL x (List.mem_cons_self _ _)⟩
          rcases hpush with h3 | h4 | h5
          · exact h3
          · exact absurd h4.1 hs
          · exfalso
            have hmem : ['.', '.'] ∈ acc := by
              obtain ⟨hne2, heq⟩ := List.mem_getLast?_eq_getLast (by rw [h5]; rfl)
              rw [heq]
              exact List.getLast_mem hne2
            exact (hacc _ hmem).2.2.1 rfl
      · split at hx
        · exact hacc x (List.mem_of_mem_dropLast hx)
        · exact hacc x hx

theorem isAbsL_exists (p : List Char) (h : isAbsL p = true) : ∃ r, p = '/' :: r := by
  cases p with
  | nil => cases h
  | cons c r =>
    have hc : c = '/' := by
      rw [show isAbsL (c :: r) = (c == '/') from rfl] at h
      exact eq_of_beq h
    exact ⟨r, by rw [hc]⟩

theorem normSlashes_pos (p : List Char) (habs : isAbsL p = true) :
    normSlashes p = 1 ∨ normSlashes p = 2 := by
  unfold normSlashes
  rw [if_pos habs]
  split
  · exact Or.inr rfl
  · exact Or.inl rfl

theorem normSlashes_canonical (k : Nat) (hk : k = 1 ∨ k = 2) (rest : List Char)
    (hrest : rest = [] ∨ ∃ c r, rest = c :: r ∧ c ≠ '/') :
    normSlashes (List.replicate k '/' ++ rest) = k := by
  rcases hk with hk | hk <;> subst hk
  · rcases hrest with hr | ⟨c, r, hr, hc⟩ <;> subst hr
    · rfl
    · show normSlashes ('/' :: c :: r) = 1
      unfold normSlashes
      rw [if_pos (show isAbsL ('/' :: c :: r) = true from rfl), if_neg]
      intro hand
      have h1 := hand.1
      rw [show List.take 2 ('/' :: c :: r) = ['/', c] from rfl] at h1
      simp at h1
      exact hc h1
  · rcases hrest with hr | ⟨c, r, hr, hc⟩ <;> subst hr
    · rfl
    · show normSlashes ('/' :: '/' :: c :: r) = 2
      unfold normSlashes
      rw [if_pos (show isAbsL ('/' :: '/' :: c :: r) = true from rfl), if_pos]
      refine ⟨rfl, ?_⟩
      intro h3
      rw [show List.take 3 ('/' :: '/' :: c :: r) = ['/', '/', c] from rfl] at h3
      simp at h3
      exact hc h3

theorem normpathL_of_ne_nil (p : List Char) (hne : p ≠ []) :
    normpathL p =
      (if List.replicate (normSlashes p) '/' ++
          joinSlash ((splitSlash p).foldl (normStep (normSlashes p)) []) = [] then ['.']
       else List.replicate (normSlashes p) '/' ++
          joinSlash ((splitSlash p).foldl (normStep (normSlashes p)) [])) := by
  unfold normpathL
  rw [if_neg hne]

theorem normpath_form_abs (p : List Char) (habs : isAbsL p = true) :
    ∃ nc : List (List Char), (∀ x ∈ nc, goodComp x) ∧
      normpathL p = List.replicate (normSlashes p) '/' ++ joinSlash nc := by
  have hne : p ≠ [] := by
    obtain ⟨r, hr⟩ := isAbsL_exists p habs
    rw [hr]
    simp
  refine ⟨(splitSlash p).foldl (normStep (normSlashes p)) [], ?_, ?_⟩
  · refine normfold_abs_invariant (normSlashes p) ?_ (splitSlash p) []
      (fun x hx => not_slash_mem_splitSlash p x hx) (fun x hx => absurd hx (by simp))
    rcases normSlashes_pos p habs with h | h <;> rw [h] <;> simp
  · have hout : List.replicate (normSlashes p) '/' ++
        joinSlash ((splitSlash p).foldl (normStep (normSlashes p)) []) ≠ [] := by
      rcases normSlashes_pos p habs with h | h <;> rw [h] <;> simp
    rw [normpathL_of_ne_nil p hne, if_neg hout]

theorem joinSlash_head_shape (nc : List (List Char)) (hnc : ∀ x ∈ nc, goodComp x) :
    joinSlash nc = [] ∨ ∃ c r, joinSlash nc = c :: r ∧ c ≠ '/' := by
  cases nc with
  | nil => exact Or.inl rfl
  | cons x t =>
    have hx := hnc x (List.mem_cons_self _ _)
    obtain ⟨a, r, hxa⟩ : ∃ a r, x = a :: r := by
      cases x with
      | nil => exact absurd rfl hx.1
      | cons a r => exact ⟨a, r, rfl⟩
    have ha : a ≠ '/' := by
      intro h
      exact hx.2.2.2 (by rw [hxa, h]; exact List.mem_cons_self _ _)
    cases t with
    | nil => exact Or.inr ⟨a, r, by rw [show joinSlash [x] = x from rfl, hxa], ha⟩
    | cons y t2 =>
      refine Or.inr ⟨a, r ++ '/' :: joinSlash (y :: t2), ?_, ha⟩
      rw [show joinSlash (x :: y :: t2) = x ++ '/' :: joinSlash (y :: t2) from rfl, hxa]
      rfl

theorem normpathL_canonical (k : Nat) (hk : k = 1 ∨ k = 2) (nc : List (List Char))
    (hnc : ∀ x ∈ nc, goodComp x) :
    normpathL (List.replicate k '/' ++ joinSlash nc) =
      List.replicate k '/' ++ joinSlash nc := by
  have hne : List.replicate k '/' ++ joinSlash nc ≠ [] := by
    rcases hk with hk | hk <;> subst hk <;> simp
  have hks : normSlashes (List.replicate k '/' ++ joinSlash nc) = k :=
    normSlashes_canonical k hk _ (joinSlash_head_shape nc hnc)
  rw [normpathL_of_ne_nil _ hne, hks, splitSlash_replicate_slash, List.foldl_append,
    normfold_replicate_nil]
  cases nc with
  | nil =>
    rw [show joinSlash ([] : List (List Char)) = [] from rfl,
      show splitSlash ([] : List Char) = [[]] from rfl,
      show ([[]] : List (List Char)).foldl (normStep k) [] = [] from by
        rw [List.foldl_cons, normStep_nil_comp]; rfl,
      show joinSlash ([] : List (List Char)) = [] from rfl]
    rw [if_neg (by rcases hk with hk | hk <;> subst hk <;> simp)]
  | cons x t =>
    have hjs : splitSlash (joinSlash (x :: t)) = x :: t :=
      splitSlash_joinSlash (x :: t) (by simp) (fun z hz => (hnc z hz).2.2.2)
    rw [hjs,
      normfold_good_append k (x :: t) []
        (fun z hz => ⟨(hnc z hz).1, (hnc z hz).2.1, (hnc z hz).2.2.1⟩),
      List.nil_append]
    rw [if_neg hne]

theorem normpathL_idem_abs (p : List Char) (habs : isAbsL p = true) :
    normpathL (normpathL p) = normpathL p := by
  obtain ⟨nc, hnc, hform⟩ := normpath_form_abs p habs
  rw [hform]
  exact normpathL_canonical (normSlashes p) (normSlashes_pos p habs) nc hnc

theorem isAbsL_normpathL (p : List Char) (habs : isAbsL p = true) :
    isAbsL (normpathL p) = true := by
  obtain ⟨nc, _, hform⟩ := normpath_form_abs p habs
  rw [hform]
  rcases normSlashes_pos p habs with h | h <;> rw [h] <;> rfl

theorem mem_normpathL (p : List Char) (c : Char) (h : c ∈ normpathL p) :
    c ∈ p ∨ c = '/' ∨ c = '.' := by
  by_cases hne : p = []
  · subst hne
    rw [show normpathL [] = ['.'] from rfl] at h
    exact Or.inr (Or.inr (List.mem_singleton.mp h))
  · rw [normpathL_of_ne_nil p hne] at h
    split at h
    · exact Or.inr (Or.inr (List.mem_singleton.mp h))
    · rcases List.mem_append.mp h with h1 | h2
      · exact Or.inr (Or.inl (List.eq_of_mem_replicate h1))
      · rcases mem_joinSlash c _ h2 with ⟨x, hx, hcx⟩ | hc
        · rcases mem_normfold _ (splitSlash p) [] x hx with h0 | hsp
          · cases h0
          · exact Or.inl (mem_of_mem_splitSlash c p x hsp hcx)
        · exact Or.inr (Or.inl hc)

theorem isAbsL_joinL (a b : List Char) (ha : isAbsL a = true) :
    isAbsL (joinL a b) = true := by
  obtain ⟨r, hr⟩ := isAbsL_exists a ha
  subst hr
  unfold joinL
  by_cases hb : isAbsL b = true
  · rw [if_pos hb]
    exact hb
  · rw [if_neg hb, if_neg (by simp)]
    by_cases hl : ('/' :: r).getLast? = some '/'
    · rw [if_pos hl, List.cons_append]
      rfl
    · rw [if_neg hl, List.cons_append]
      rfl

theorem mem_joinL (a b : List Char) (c : Char) (h : c ∈ joinL a b) :
    c ∈ a ∨ c ∈ b ∨ c = '/' := by
  unfold joinL at h
  split at h
  · exact Or.inr (Or.inl h)
  · split at h
    · rcases List.mem_append.mp h with h1 | h2
      exacts [Or.inl h1, Or.inr (Or.inl h2)]
    · split at h
      · rcases List.mem_append.mp h with h1 | h2
        exacts [Or.inl h1, Or.inr (Or.inl h2)]
      · rcases List.mem_append.mp h with h1 | h2
        · exact Or.inl h1
        · rcases List.mem_cons.mp h2 with h3 | h4
          exacts [Or.inr (Or.inr h3), Or.inr (Or.inl h4)]

/-! ## C2 (amended): shape of stored record paths -/

theorem charList_contains_iff (l : List Char) (c : Char) : l.contains c = true ↔ c ∈ l := by
  rw [show l.contains c = l.elem c from rfl]
  exact List.elem_iff

theorem charList_contains_false (l : List Char) (c : Char) (h : c ∉ l) :
    l.contains c = false := by
  rw [← Bool.not_eq_true]
  intro hc
  exact h ((charList_contains_iff l c).mp hc)

theorem isAbsS_normJoin (a b : String) (ha : isAbsS a = true) :
    isAbsS (normJoin a b) = true :=
  isAbsL_normpathL _ (isAbsL_joinL a.data b.data ha)

theorem not_at_normJoin (a b : String) (ha : '@' ∉ a.data) (hb : '@' ∉ b.data) :
    '@' ∉ (normJoin a b).data := by
  intro h
  rcases mem_normpathL _ _ h with hj | hc | hc
  · rcases mem_joinL a.data b.data '@' hj with h1 | h2 | h3
    exacts [ha h1, hb h2, by cases h3]
  · cases hc
  · cases hc

theorem normpathS_normJoin (a b : String) (ha : isAbsS a = true) :
    normpathS (normJoin a b) = normJoin a b :=
  congrArg String.mk (normpathL_idem_abs (joinL a.data b.data) (isAbsL_joinL a.data b.data ha))

theorem resolveDir_props (cwd : String) (vm cd : List (String × String)) (d : DirTemplate)
    (ph : List (String × String)) (fd : String)
    (hcwd : isAbsS cwd = true) (hat : '@' ∉ cwd.data)
    (h : resolveDir cwd vm cd d ph = some fd) :
    isAbsS fd = true ∧ '@' ∉ fd.data := by
  unfold resolveDir at h
  simp only [] at h
  split at h
  · cases h
  · next hcontains =>
    have hs : '@' ∉ (expandPlaceholders vm cd ph d.template).data := by
      intro hm
      exact hcontains ((charList_contains_iff _ _).mpr hm)
    injection h with h
    subst h
    by_cases habs : isAbsS (expandPlaceholders vm cd ph d.template) = true
    · rw [if_pos habs]
      exact ⟨habs, hs⟩
    · rw [if_neg habs]
      exact ⟨isAbsS_normJoin cwd _ hcwd, not_at_normJoin cwd _ hat hs⟩

theorem mem_appendAtKey {α : Type} :
    ∀ (idx : List (String × List α)) (k0 k : String) (v : α) (recs : List α) (r : α),
      lookupA (appendAtKey idx k0 v) k = some recs → r ∈ recs →
      (∃ recs0, lookupA idx k = some recs0 ∧ r ∈ recs0) ∨ r = v := by
  intro idx
  induction idx with
  | nil =>
    intro k0 k v recs r h hr
    unfold appendAtKey at h
    unfold lookupA at h
    split at h
    · injection h with h
      subst h
      exact Or.inr (List.mem_singleton.mp hr)
    · cases h
  | cons e t ih =>
    intro k0 k v recs r h hr
    obtain ⟨k1, l1⟩ := e
    unfold appendAtKey at h
    by_cases h10 : k1 = k0
    · rw [if_pos h10] at h
      unfold lookupA at h
      split at h
      · next h1k =>
        injection h with h
        subst h
        rcases List.mem_append.mp hr with h1 | h2
        · exact Or.inl ⟨l1, by unfold lookupA; rw [if_pos h1k], h1⟩
        · exact Or.inr (List.mem_singleton.mp h2)
      · next h1k =>
        exact Or.inl ⟨recs, by unfold lookupA; rw [if_neg h1k]; exact h, hr⟩
    · rw [if_neg h10] at h
      unfold lookupA at h
      split at h
      · next h1k =>
        injection h with h
        subst h
        exact Or.inl ⟨l1, by unfold lookupA; rw [if_pos h1k], hr⟩
      · next h1k =>
        rcases ih k0 k v recs r h hr with ⟨recs0, hl0, hr0⟩ | hv
        · exact Or.inl ⟨recs0, by unfold lookupA; rw [if_neg h1k]; exact hl0, hr0⟩
        · exact Or.inr hv

theorem fold_preserves_inv {β : Type} (P : IndexRecord → Prop)
    (f : List (String × List IndexRecord) → β → List (String × List IndexRecord))
    (l : List β)
    (hstep : ∀ acc b, (∀ k recs r, lookupA acc k = some recs → r ∈ recs → P r) →
      ∀ k recs r, lookupA (f acc b) k = some recs → r ∈ recs → P r) :
    ∀ acc, (∀ k recs r, lookupA acc k = some recs → r ∈ recs → P r) →
      ∀ k recs r, lookupA (l.foldl f acc) k = some recs → r ∈ recs → P r := by
  induction l with
  | nil => intro acc h; exact h
  | cons b t ih =>
    intro acc h
    rw [List.foldl_cons]
    exact ih _ (hstep acc b h)

theorem rawRecordsStep_preserves (cwd : String) (vm cd : List (String × String))
    (meta : Meta) (fname : String) (lvl : Option String) (hcwd : isAbsS cwd = true)
    (acc : List (String × List IndexRecord)) (e : String × Instance)
    (hinv : ∀ k recs r, lookupA acc k = some recs → r ∈ recs → cleanRecord r) :
    ∀ k recs r, lookupA (rawRecordsStep cwd vm cd meta fname lvl acc e) k = some recs →
      r ∈ recs → cleanRecord r := by
  intro k recs r hlk hr
  unfold rawRecordsStep at hlk
  cases hp : lookupA e.2.props fname with
  | none =>
    rw [hp] at hlk
    exact hinv k recs r hlk hr
  | some pv =>
    rw [hp] at hlk
    simp only [] at hlk
    rcases mem_appendAtKey acc fname k _ recs r hlk hr with ⟨recs0, hl0, hr0⟩ | hv
    · exact hinv k recs0 r hl0 hr0
    · subst hv
      constructor
      · show isAbsS (if isAbsS (String.mk (expandDollarsL (mergeMaps vm cd) pv.data)) = true
            then String.mk (expandDollarsL (mergeMaps vm cd) pv.data)
            else normJoin cwd (String.mk (expandDollarsL (mergeMaps vm cd) pv.data))) = true
        by_cases habs : isAbsS (String.mk (expandDollarsL (mergeMaps vm cd) pv.data)) = true
        · rw [if_pos habs]
          exact habs
        · rw [if_neg habs]
          exact isAbsS_normJoin cwd _ hcwd
      · intro hsrc
        have hre : ("raw" : String) = "out" := hsrc
        exact absurd hre (by decide)

theorem templateRecordsStep_preserves (cwd : String) (vm cd : List (String × String))
    (fname : String) (ftemp : FileTemplate) (dtemp : DirTemplate)
    (hcwd : isAbsS cwd = true) (hat : '@' ∉ cwd.data)
    (acc : List (String × List IndexRecord)) (ctx : List (String × String))
    (hinv : ∀ k recs r, lookupA acc k = some recs → r ∈ recs → cleanRecord r) :
    ∀ k recs r, lookupA (templateRecordsStep cwd vm cd fname ftemp dtemp acc ctx) k =
      some recs → r ∈ recs → cleanRecord r := by
  intro k recs r hlk hr
  unfold templateRecordsStep at hlk
  cases hrd : resolveDir cwd vm cd dtemp ctx with
  | none =>
    rw [hrd] at hlk
    exact hinv k recs r hlk hr
  | some fd =>
    rw [hrd] at hlk
    simp only [] at hlk
    split at hlk
    · exact hinv k recs r hlk hr
    · next hcont =>
      rcases mem_appendAtKey acc fname k _ recs r hlk hr with ⟨recs0, hl0, hr0⟩ | hv
      · exact hinv k recs0 r hl0 hr0
      · subst hv
        obtain ⟨hfdabs, hfdat⟩ := resolveDir_props cwd vm cd dtemp ctx fd hcwd hat hrd
        have hfexp : '@' ∉ (expandPlaceholders vm cd ctx ftemp.tpl).data := fun hm =>
          hcont ((charList_contains_iff _ _).mpr hm)
        refine ⟨isAbsS_normJoin fd _ hfdabs, fun _ => ⟨?_, ?_⟩⟩
        · exact charList_contains_false _ _ (not_at_normJoin fd _ hfdat hfexp)
        · exact normpathS_normJoin fd _ hfdabs

theorem processFileEntry_preserves (cfg : PipelineCfg) (meta : Meta) (cwd : String)
    (vm cd : List (String × String)) (hcwd : isAbsS cwd = true) (hat : '@' ∉ cwd.data)
    (acc : List (String × List IndexRecord)) (e : String × FileTemplate)
    (hinv : ∀ k recs r, lookupA acc k = some recs → r ∈ recs → cleanRecord r) :
    ∀ k recs r, lookupA (processFileEntry cfg meta cwd vm cd acc e) k = some recs →
      r ∈ recs → cleanRecord r := by
  intro k recs r hlk hr
  unfold processFileEntry at hlk
  cases hd : lookupA cfg.dirs e.2.dir_ref with
  | none =>
    rw [hd] at hlk
    exact hinv k recs r hlk hr
  | some dtemp =>
    rw [hd] at hlk
    simp only [] at hlk
    have hraw := fold_preserves_inv cleanRecord
      (rawRecordsStep cwd vm cd meta e.1 e.2.class_level) meta.instances
      (fun acc2 b h2 => rawRecordsStep_preserves cwd vm cd meta e.1 e.2.class_level
        hcwd acc2 b h2) acc hinv
    exact fold_preserves_inv cleanRecord
      (templateRecordsStep cwd vm cd e.1 e.2 dtemp)
      (contextsForClassLevel meta e.2.class_level)
      (fun acc2 b h2 => templateRecordsStep_preserves cwd vm cd e.1 e.2 dtemp
        hcwd hat acc2 b h2) _ hraw k recs r hlk hr

theorem buildIndex_records_clean (cfg : PipelineCfg) (meta : Meta) (cwd : String)
    (vm cd : List (String × String)) (hcwd : isAbsS cwd = true) (hat : '@' ∉ cwd.data) :
    ∀ k recs r, lookupA (buildIndex cfg meta cwd vm cd) k = some recs → r ∈ recs →
      cleanRecord r := by
  unfold buildIndex
  exact fold_preserves_inv cleanRecord (processFileEntry cfg meta cwd vm cd) cfg.files
    (fun acc2 b h2 => processFileEntry_preserves cfg meta cwd vm cd hcwd hat acc2 b h2)
    [] (fun k recs r h _ => by cases h)

/-- C2 (amended): with an absolute, placeholder-free working directory,
every record stored in the built index has an absolute path, and every
template-derived record (tagged `"out"`) additionally has a normalized,
`@`-free path.  The original claim is refuted by
`stored_paths_can_keep_placeholder_text`: unresolved `$name` tokens stay
verbatim in stored paths, and raw-override paths are stored without an
`@` check or normalization. -/
theorem index_paths_absolute_and_template_paths_clean (cfg : PipelineCfg) (meta : Meta)
    (cwd : String) (hcwd : isAbsS cwd = true) (hat : '@' ∉ cwd.data)
    (k : String) (recs : List IndexRecord) (r : IndexRecord)
    (hlk : lookupA (mkResolver cfg meta cwd).index k = some recs) (hr : r ∈ recs) :
    isAbsS r.path = true ∧
      (r.source = "out" → r.path.data.contains '@' = false ∧ normpathS r.path = r.path) :=
  buildIndex_records_clean cfg meta cwd _ _ hcwd hat k recs r hlk hr

/-- Witness for the amended C2 at the example scenario's record. -/
theorem index_paths_absolute_witness :
    isAbsS (IndexRecord.path ⟨"/data/s1/summary.txt", [("@Sample", "s1")],
      some "Sample", "out"⟩) = true ∧
    (IndexRecord.source ⟨"/data/s1/summary.txt", [("@Sample", "s1")],
        some "Sample", "out"⟩ = "out" →
      (IndexRecord.path ⟨("/data/s1/summary.txt" : String), [("@Sample", "s1")],
        some "Sample", "out"⟩).data.contains '@' = false ∧
      normpathS (IndexRecord.path ⟨"/data/s1/summary.txt", [("@Sample", "s1")],
        some "Sample", "out"⟩) = IndexRecord.path ⟨"/data/s1/summary.txt",
        [("@Sample", "s1")], some "Sample", "out"⟩) :=
  index_paths_absolute_and_template_paths_clean cfgScenario metaScenario "/work"
    (by decide) (by decide) "summary_file"
    [⟨"/data/s1/summary.txt", [("@Sample", "s1")], some "Sample", "out"⟩]
    ⟨"/data/s1/summary.txt", [("@Sample", "s1")], some "Sample", "out"⟩
    (by decide) (by decide)

/-! ## C5: placeholder contexts bind closest-first -/

theorem lookupA_append {α : Type} : ∀ (l1 l2 : List (String × α)) (k : String),
    lookupA (l1 ++ l2) k =
      (match lookupA l1 k with
       | some v => some v
       | none => lookupA l2 k) := by
  intro l1
  induction l1 with
  | nil => intro l2 k; rfl
  | cons e t ih =>
    intro l2 k
    obtain ⟨k0, v0⟩ := e
    rw [List.cons_append,
      show lookupA ((k0, v0) :: (t ++ l2)) k =
        (if k0 = k then some v0 else lookupA (t ++ l2) k) from rfl,
      show lookupA ((k0, v0) :: t) k =
        (if k0 = k then some v0 else lookupA t k) from rfl]
    by_cases hk : k0 = k
    · rw [if_pos hk, if_pos hk]
    · rw [if_neg hk, if_neg hk, ih]

theorem lookupA_isSome_of_mem {α : Type} : ∀ (l : List (String × α)) (k : String),
    k ∈ l.map Prod.fst → (lookupA l k).isSome = true := by
  intro l
  induction l with
  | nil => intro k h; cases h
  | cons e t ih =>
    intro k h
    obtain ⟨k0, v0⟩ := e
    unfold lookupA
    by_cases hk : k0 = k
    · rw [if_pos hk]; rfl
    · rw [if_neg hk]
      rcases List.mem_cons.mp h with h1 | h2
      · exact absurd h1.symm hk
      · exact ih k h2

theorem bfsFuel_eq_applyBindings (insts : List (String × Instance)) :
    ∀ (n : Nat) (queue : List String) (seen : Finset String)
      (ctx : List (String × String)),
      bfsFuel insts n queue seen ctx =
        applyBindings ctx (visitBindings insts (bfsOrderFuel insts n queue seen)) := by
  intro n
  induction n with
  | zero => intro queue seen ctx; rfl
  | succ m ih =>
    intro queue seen ctx
    cases queue with
    | nil => rfl
    | cons p rest =>
      by_cases hp : p ∈ seen
      · rw [show bfsFuel insts (m + 1) (p :: rest) seen ctx =
            bfsFuel insts m rest seen ctx from by
              simp only [bfsFuel]; rw [if_pos hp],
          show bfsOrderFuel insts (m + 1) (p :: rest) seen =
            bfsOrderFuel insts m rest seen from by
              simp only [bfsOrderFuel]; rw [if_pos hp]]
        exact ih rest seen ctx
      · cases hl : lookupA insts p with
        | none =>
          rw [show bfsFuel insts (m + 1) (p :: rest) seen ctx =
              bfsFuel insts m rest (insert p seen) ctx from by
                simp only [bfsFuel]; rw [if_neg hp, hl],
            show bfsOrderFuel insts (m + 1) (p :: rest) seen =
              bfsOrderFuel insts m rest (insert p seen) from by
                simp only [bfsOrderFuel]; rw [if_neg hp, hl]]
          exact ih rest (insert p seen) ctx
        | some pobj =>
          rw [show bfsFuel insts (m + 1) (p :: rest) seen ctx =
              bfsFuel insts m (rest ++ pobj.parents) (insert p seen)
                (if pobj.class_name ≠ "" then ctxAdd ctx ("@" ++ pobj.class_name) p
                 else ctx) from by
                simp only [bfsFuel]; rw [if_neg hp, hl],
            show bfsOrderFuel insts (m + 1) (p :: rest) seen =
              p :: bfsOrderFuel insts m (rest ++ pobj.parents) (insert p seen) from by
                simp only [bfsOrderFuel]; rw [if_neg hp, hl]]
          by_cases hcls : pobj.class_name = ""
          · rw [show visitBindings insts
                (p :: bfsOrderFuel insts m (rest ++ pobj.parents) (insert p seen)) =
                visitBindings insts
                  (bfsOrderFuel insts m (rest ++ pobj.parents) (insert p seen)) from by
                  unfold visitBindings
                  rw [List.filterMap_cons]
                  rw [show visitBinding insts p = none from by
                    unfold visitBinding
                    rw [hl]
                    show (if pobj.class_name = "" then none
                      else some ("@" ++ pobj.class_name, p)) = (none : Option (String × String))
                    rw [if_pos hcls]]]
            rw [if_neg (fun hne => hne hcls)]
            exact ih _ _ _
          · rw [show visitBindings insts
                (p :: bfsOrderFuel insts m (rest ++ pobj.parents) (insert p seen)) =
                ("@" ++ pobj.class_name, p) ::
                  visitBindings insts
                    (bfsOrderFuel insts m (rest ++ pobj.parents) (insert p seen)) from by
                  unfold visitBindings
                  rw [List.filterMap_cons]
                  rw [show visitBinding insts p =
                    some ("@" ++ pobj.class_name, p) from by
                    unfold visitBinding
                    rw [hl]
                    show (if pobj.class_name = "" then none
                      else some ("@" ++ pobj.class_name, p)) =
                      some ("@" ++ pobj.class_name, p)
                    rw [if_neg hcls]]]
            rw [if_pos hcls]
            exact ih _ _ _

theorem contextSpecOrder_of_found (meta : Meta) (inst : String) (obj : Instance)
    (hl : lookupA meta.instances inst = some obj) :
    contextSpecOrder meta inst =
      (if obj.class_name = "" then [] else [("@" ++ obj.class_name, inst)]) ++
        visitBindings meta.instances (bfsOrderRun meta.instances obj.parents ∅) := by
  unfold contextSpecOrder
  rw [hl]

theorem lookupA_applyBindings : ∀ (bs ctx : List (String × String)) (key : String),
    lookupA (applyBindings ctx bs) key =
      (match lookupA ctx key with
       | some v => some v
       | none => (bs.find? (fun pr => pr.1 == key)).map Prod.snd) := by
  intro bs
  induction bs with
  | nil =>
    intro ctx key
    show lookupA ctx key = _
    cases lookupA ctx key <;> rfl
  | cons kv t ih =>
    intro ctx key
    obtain ⟨k, v⟩ := kv
    show lookupA (applyBindings (ctxAdd ctx k v) t) key = _
    rw [ih]
    cases hc : lookupA ctx key with
    | some w =>
      have hadd : lookupA (ctxAdd ctx k v) key = some w := by
        unfold ctxAdd
        split
        · exact hc
        · rw [lookupA_append, hc]
      rw [hadd]
    | none =>
      by_cases hk : k = key
      · subst hk
        have hadd : lookupA (ctxAdd ctx k v) k = some v := by
          unfold ctxAdd
          split
          · next hsome => rw [hc] at hsome; exact absurd hsome (by simp)
          · rw [lookupA_append, hc]
            show lookupA [(k, v)] k = some v
            unfold lookupA
            rw [if_pos rfl]
        rw [hadd, List.find?_cons_of_pos]
        · rfl
        · exact beq_self_eq_true k
      · have hadd : lookupA (ctxAdd ctx k v) key = none := by
          unfold ctxAdd
          split
          · exact hc
          · rw [lookupA_append, hc]
            show lookupA [(k, v)] key = none
            unfold lookupA
            rw [if_neg hk]
            rfl
        rw [hadd, List.find?_cons_of_neg]
        exact fun hb => hk (eq_of_beq hb)

theorem applyBindings_keys_nodup : ∀ (bs ctx : List (String × String)),
    (ctx.map Prod.fst).Nodup → ((applyBindings ctx bs).map Prod.fst).Nodup := by
  intro bs
  induction bs with
  | nil => intro ctx h; exact h
  | cons kv t ih =>
    intro ctx h
    show ((applyBindings (ctxAdd ctx kv.1 kv.2) t).map Prod.fst).Nodup
    apply ih
    unfold ctxAdd
    split
    · exact h
    · next hnone =>
      have hnm : kv.1 ∉ ctx.map Prod.fst := by
        intro hm
        exact hnone (lookupA_isSome_of_mem ctx kv.1 hm)
      rw [List.map_append]
      simp [List.nodup_append, h, hnm]

/-- C5: the context built for a known instance binds each `@ClassName`
key to exactly one instance name (its key list has no duplicates), and
looking up any key returns the first binding in the closest-first order:
the instance's own class first, then the classes of its ancestors in
breadth-first order, an existing binding never being overwritten. -/
theorem context_binds_closest_first (meta : Meta) (inst : String)
    (ctx : List (String × String))
    (h : buildContextFromInstance meta inst = some ctx) :
    (ctx.map Prod.fst).Nodup ∧
    ∀ key : String, lookupA ctx key =
      ((contextSpecOrder meta inst).find? (fun pr => pr.1 == key)).map Prod.snd := by
  unfold buildContextFromInstance at h
  cases hl : lookupA meta.instances inst with
  | none => rw [hl] at h; cases h
  | some obj =>
    rw [hl] at h
    simp only [] at h
    injection h with h
    subst h
    rw [contextSpecOrder_of_found meta inst obj hl]
    rw [show bfsRun meta.instances obj.parents ∅
        (if obj.class_name ≠ "" then [("@" ++ obj.class_name, inst)] else []) =
        applyBindings
          (if obj.class_name ≠ "" then [("@" ++ obj.class_name, inst)] else [])
          (visitBindings meta.instances (bfsOrderRun meta.instances obj.parents ∅)) from
      bfsFuel_eq_applyBindings meta.instances _ obj.parents ∅ _]
    constructor
    · apply applyBindings_keys_nodup
      by_cases hcls : obj.class_name = ""
      · rw [if_neg (fun hne => hne hcls)]
        simp
      · rw [if_pos hcls]
        simp
    · intro key
      rw [lookupA_applyBindings]
      by_cases hcls : obj.class_name = ""
      · rw [if_neg (fun hne => hne hcls), if_pos hcls, List.nil_append]
        rfl
      · rw [if_pos hcls, if_neg hcls, List.singleton_append]
        by_cases hkey : "@" ++ obj.class_name = key
        · rw [show lookupA [("@" ++ obj.class_name, inst)] key = some inst from by
              unfold lookupA; rw [if_pos hkey],
            List.find?_cons_of_pos]
          · rfl
          · exact beq_iff_eq.mpr hkey
        · rw [show lookupA [("@" ++ obj.class_name, inst)] key = none from by
              unfold lookupA; rw [if_neg hkey]; rfl,
            List.find?_cons_of_neg]
          exact fun hb => hkey (eq_of_beq hb)

/-- Witness for C5 at `metaTwoParents`: the built context has duplicate-free
keys and binds `@B` to the breadth-first-closest parent `p1`. -/
theorem context_binds_closest_first_witness :
    (([("@A", "x1"), ("@B", "p1")] : List (String × String)).map Prod.fst).Nodup ∧
    lookupA [("@A", "x1"), ("@B", "p1")] "@B" = some "p1" := by
  have h := context_binds_closest_first metaTwoParents "x1"
    [("@A", "x1"), ("@B", "p1")] (by decide)
  exact ⟨h.1, (h.2 "@B").trans (by decide)⟩

/-! ## Adequacy of the BFS fuel: the supplied fuel dominates the loop -/

theorem lookupA_mem {α : Type} : ∀ (l : List (String × α)) (k : String) (v : α),
    lookupA l k = some v → (k, v) ∈ l := by
  intro l
  induction l with
  | nil => intro k v h; cases h
  | cons e t ih =>
    intro k v h
    obtain ⟨k0, v0⟩ := e
    unfold lookupA at h
    split at h
    · next hk =>
      injection h with h
      subst hk
      subst h
      exact List.mem_cons_self _ _
    · exact List.mem_cons_of_mem _ (ih k v h)

theorem mem_allParentNames (insts : List (String × Instance)) (p : String)
    (pobj : Instance) (hmem : (p, pobj) ∈ insts) :
    ∀ q ∈ pobj.parents, q ∈ allParentNames insts := by
  induction insts with
  | nil => cases hmem
  | cons e t ih =>
    intro q hq
    rw [show allParentNames (e :: t) = e.2.parents.toFinset ∪ allParentNames t from rfl,
      Finset.mem_union]
    rcases List.mem_cons.mp hmem with h1 | h2
    · subst h1
      exact Or.inl (List.mem_toFinset.mpr hq)
    · exact Or.inr (ih h2 q hq)

theorem parents_length_le_total (insts : List (String × Instance)) (p : String)
    (pobj : Instance) (hmem : (p, pobj) ∈ insts) :
    pobj.parents.length ≤ totalParentCount insts := by
  induction insts with
  | nil => cases hmem
  | cons e t ih =>
    rw [show totalParentCount (e :: t) = e.2.parents.length + totalParentCount t from by
      unfold totalParentCount; rw [List.map_cons, List.sum_cons]]
    rcases List.mem_cons.mp hmem with h1 | h2
    · subst h1
      exact Nat.le_add_right _ _
    · exact (ih h2).trans (Nat.le_add_left _ _)

theorem bfsMeasure_tail_lt (insts : List (String × Instance)) (p : String)
    (rest : List String) (seen : Finset String) :
    bfsMeasure insts rest seen < bfsMeasure insts (p :: rest) seen := by
  have hsub : (allParentNames insts ∪ rest.toFinset) \ seen ⊆
      (allParentNames insts ∪ (p :: rest).toFinset) \ seen := by
    intro x hx
    rw [Finset.mem_sdiff] at hx ⊢
    refine ⟨?_, hx.2⟩
    rw [Finset.mem_union] at hx ⊢
    rcases hx.1 with h | h
    · exact Or.inl h
    · right
      rw [List.toFinset_cons, Finset.mem_insert]
      exact Or.inr h
  have h1 := Nat.mul_le_mul_right (totalParentCount insts + 2) (Finset.card_le_card hsub)
  unfold bfsMeasure
  rw [List.length_cons]
  set T := totalParentCount insts with hT
  set X := ((allParentNames insts ∪ rest.toFinset) \ seen).card * (T + 2) with hX
  set Y := ((allParentNames insts ∪ (p :: rest).toFinset) \ seen).card * (T + 2) with hY
  omega

theorem bfsMeasure_skip_lt (insts : List (String × Instance)) (p : String)
    (rest : List String) (seen : Finset String) :
    bfsMeasure insts rest (insert p seen) < bfsMeasure insts (p :: rest) seen := by
  have hsub : (allParentNames insts ∪ rest.toFinset) \ insert p seen ⊆
      (allParentNames insts ∪ (p :: rest).toFinset) \ seen := by
    intro x hx
    rw [Finset.mem_sdiff] at hx ⊢
    refine ⟨?_, fun hs => hx.2 (Finset.mem_insert_of_mem hs)⟩
    rw [Finset.mem_union] at hx ⊢
    rcases hx.1 with h | h
    · exact Or.inl h
    · right
      rw [List.toFinset_cons, Finset.mem_insert]
      exact Or.inr h
  have h1 := Nat.mul_le_mul_right (totalParentCount insts + 2) (Finset.card_le_card hsub)
  unfold bfsMeasure
  rw [List.length_cons]
  set T := totalParentCount insts with hT
  set X := ((allParentNames insts ∪ rest.toFinset) \ insert p seen).card * (T + 2) with hX
  set Y := ((allParentNames insts ∪ (p :: rest).toFinset) \ seen).card * (T + 2) with hY
  omega

theorem bfsMeasure_found_lt (insts : List (String × Instance)) (p : String)
    (rest : List String) (seen : Finset String) (pobj : Instance) (hp : p ∉ seen)
    (hl : lookupA insts p = some pobj) :
    bfsMeasure insts (rest ++ pobj.parents) (insert p seen) <
      bfsMeasure insts (p :: rest) seen := by
  have hmem : (p, pobj) ∈ insts := lookupA_mem insts p pobj hl
  have hparU := mem_allParentNames insts p pobj hmem
  have hpB : p ∈ (allParentNames insts ∪ (p :: rest).toFinset) \ seen := by
    rw [Finset.mem_sdiff, Finset.mem_union, List.toFinset_cons]
    exact ⟨Or.inr (Finset.mem_insert_self _ _), hp⟩
  have hsub : (allParentNames insts ∪ (rest ++ pobj.parents).toFinset) \ insert p seen ⊆
      ((allParentNames insts ∪ (p :: rest).toFinset) \ seen).erase p := by
    intro x hx
    rw [Finset.mem_sdiff] at hx
    rw [Finset.mem_erase, Finset.mem_sdiff]
    obtain ⟨hx1, hx2⟩ := hx
    rw [Finset.mem_insert] at hx2
    push_neg at hx2
    refine ⟨hx2.1, ?_, hx2.2⟩
    rw [Finset.mem_union] at hx1 ⊢
    rcases hx1 with hU | hQ
    · exact Or.inl hU
    · rw [List.toFinset_append, Finset.mem_union] at hQ
      rcases hQ with hr | hpar
      · right
        rw [List.toFinset_cons, Finset.mem_insert]
        exact Or.inr hr
      · exact Or.inl (hparU x (List.mem_toFinset.mp hpar))
  have hcard : ((allParentNames insts ∪ (rest ++ pobj.parents).toFinset) \
      insert p seen).card + 1 ≤
      ((allParentNames insts ∪ (p :: rest).toFinset) \ seen).card := by
    have h2 := Finset.card_le_card hsub
    rw [Finset.card_erase_of_mem hpB] at h2
    have hpos : 0 < ((allParentNames insts ∪ (p :: rest).toFinset) \ seen).card :=
      Finset.card_pos.mpr ⟨p, hpB⟩
    omega
  have hpar_len : pobj.parents.length ≤ totalParentCount insts :=
    parents_length_le_total insts p pobj hmem
  have h1 := Nat.mul_le_mul_right (totalParentCount insts + 2) hcard
  rw [Nat.succ_mul] at h1
  unfold bfsMeasure
  rw [List.length_append, List.length_cons]
  set T := totalParentCount insts with hT
  set X := ((allParentNames insts ∪ (rest ++ pobj.parents).toFinset) \
    insert p seen).card * (T + 2) with hX
  set Y := ((allParentNames insts ∪ (p :: rest).toFinset) \ seen).card * (T + 2) with hY
  omega

/-- The fuel passed by `bfsRun` is insensitive above the measure: any two
sufficient fuels give the same result, so the fuel-indexed definition
agrees with the source's unbounded `while` loop. -/
theorem bfsFuel_congr (insts : List (String × Instance)) :
    ∀ (n m : Nat) (queue : List String) (seen : Finset String)
      (ctx : List (String × String)),
      bfsMeasure insts queue seen ≤ n → bfsMeasure insts queue seen ≤ m →
      bfsFuel insts n queue seen ctx = bfsFuel insts m queue seen ctx := by
  intro n
  induction n using Nat.strong_induction_on with
  | _ n ih =>
    intro m queue seen ctx hn hm
    cases queue with
    | nil => cases n <;> cases m <;> rfl
    | cons p rest =>
      have hpos : 1 ≤ bfsMeasure insts (p :: rest) seen := by
        unfold bfsMeasure
        rw [List.length_cons]
        omega
      obtain ⟨n2, rfl⟩ : ∃ n2, n = n2 + 1 := ⟨n - 1, by omega⟩
      obtain ⟨m2, rfl⟩ : ∃ m2, m = m2 + 1 := ⟨m - 1, by omega⟩
      by_cases hp : p ∈ seen
      · rw [show bfsFuel insts (n2 + 1) (p :: rest) seen ctx =
            bfsFuel insts n2 rest seen ctx from by
              simp only [bfsFuel]; rw [if_pos hp],
          show bfsFuel insts (m2 + 1) (p :: rest) seen ctx =
            bfsFuel insts m2 rest seen ctx from by
              simp only [bfsFuel]; rw [if_pos hp]]
        have hlt := bfsMeasure_tail_lt insts p rest seen
        exact ih n2 (Nat.lt_succ_self n2) m2 rest seen ctx (by omega) (by omega)
      · cases hl : lookupA insts p with
        | none =>
          rw [show bfsFuel insts (n2 + 1) (p :: rest) seen ctx =
              bfsFuel insts n2 rest (insert p seen) ctx from by
                simp only [bfsFuel]; rw [if_neg hp, hl],
            show bfsFuel insts (m2 + 1) (p :: rest) seen ctx =
              bfsFuel insts m2 rest (insert p seen) ctx from by
                simp only [bfsFuel]; rw [if_neg hp, hl]]
          have hlt := bfsMeasure_skip_lt insts p rest seen
          exact ih n2 (Nat.lt_succ_self n2) m2 rest (insert p seen) ctx (by omega) (by omega)
        | some pobj =>
          rw [show bfsFuel insts (n2 + 1) (p :: rest) seen ctx =
              bfsFuel insts n2 (rest ++ pobj.parents) (insert p seen)
                (if pobj.class_name ≠ "" then ctxAdd ctx ("@" ++ pobj.class_name) p
                 else ctx) from by
                simp only [bfsFuel]; rw [if_neg hp, hl],
            show bfsFuel insts (m2 + 1) (p :: rest) seen ctx =
              bfsFuel insts m2 (rest ++ pobj.parents) (insert p seen)
                (if pobj.class_name ≠ "" then ctxAdd ctx ("@" ++ pobj.class_name) p
                 else ctx) from by
                simp only [bfsFuel]; rw [if_neg hp, hl]]
          have hlt := bfsMeasure_found_lt insts p rest seen pobj hp hl
          exact ih n2 (Nat.lt_succ_self n2) m2 (rest ++ pobj.parents) (insert p seen) _
            (by omega) (by omega)

end Lap
